import Mathlib

/-!
A verification development for a watershed-geometry preparation library.
The coordinate reprojection wrappers (`workflow/warp.py`) are embedded from
their source.  The snapping core (point utilities, cleanup pass, drainage
tree model and builder, HUC topology store, snapping engine) is not among
the available sources — only its test harness is — so those components are
modelled from the specification, with the tests used to settle points the
specification text leaves open.
-/

namespace Workflow

/-! ## Exact rational coordinates

Floating-point coordinates are modelled by exact fractions with a positive
denominator, kept unnormalised so that every arithmetic step is a plain
integer computation (and therefore evaluates inside the kernel).  `Q.val`
maps a fraction to the rational number it denotes; the algorithmic
comparisons `Q.ble` and `Q.beq` are cross-multiplied integer tests, proved
equivalent to the valuation semantics below. -/

structure Q where
  n : Int
  d : Int
  dpos : 0 < d

/-- Smart constructor: `qq n d` is the fraction `n / d` (falling back to
`n / 1` on a non-positive denominator, a case the model never uses). -/
def qq (num den : Int) : Q :=
  if h : 0 < den then ⟨num, den, h⟩ else ⟨num, 1, one_pos⟩

/-- The rational number a fraction denotes. -/
def Q.val (a : Q) : ℚ := (a.n : ℚ) / (a.d : ℚ)

def Q.add (a b : Q) : Q := ⟨a.n * b.d + b.n * a.d, a.d * b.d, mul_pos a.dpos b.dpos⟩

def Q.sub (a b : Q) : Q := ⟨a.n * b.d - b.n * a.d, a.d * b.d, mul_pos a.dpos b.dpos⟩

def Q.mul (a b : Q) : Q := ⟨a.n * b.n, a.d * b.d, mul_pos a.dpos b.dpos⟩

/-- Division; on division by zero the model returns 0 (a case the
algorithms guard against). -/
def Q.div (a b : Q) : Q :=
  if h : 0 < b.n then ⟨a.n * b.d, a.d * b.n, mul_pos a.dpos h⟩
  else if h2 : b.n < 0 then ⟨-(a.n * b.d), a.d * (-b.n), mul_pos a.dpos (by omega)⟩
  else ⟨0, 1, one_pos⟩

/-- Order test: `a ≤ b` by cross multiplication. -/
def Q.ble (a b : Q) : Bool := a.n * b.d ≤ b.n * a.d

/-- Equality test: `a = b` by cross multiplication. -/
def Q.beq (a b : Q) : Bool := a.n * b.d == b.n * a.d

theorem Q.dne (a : Q) : ((a.d : ℚ)) ≠ 0 :=
  Int.cast_ne_zero.mpr a.dpos.ne'

theorem Q.dposQ (a : Q) : (0 : ℚ) < (a.d : ℚ) := by exact_mod_cast a.dpos

theorem Q.val_add (a b : Q) : (a.add b).val = a.val + b.val := by
  have ha := a.dne; have hb := b.dne
  unfold Q.val Q.add
  push_cast
  field_simp

theorem Q.val_sub (a b : Q) : (a.sub b).val = a.val - b.val := by
  have ha := a.dne; have hb := b.dne
  unfold Q.val Q.sub
  push_cast
  field_simp
  ring

theorem Q.val_mul (a b : Q) : (a.mul b).val = a.val * b.val := by
  have ha := a.dne; have hb := b.dne
  unfold Q.val Q.mul
  push_cast
  field_simp

theorem Q.ble_iff (a b : Q) : a.ble b = true ↔ a.val ≤ b.val := by
  unfold Q.ble Q.val
  rw [decide_eq_true_iff, div_le_div_iff₀ a.dposQ b.dposQ]
  constructor
  · intro h; exact_mod_cast h
  · intro h; exact_mod_cast h

theorem Q.beq_iff (a b : Q) : a.beq b = true ↔ a.val = b.val := by
  unfold Q.beq Q.val
  rw [beq_iff_eq, div_eq_div_iff a.dne b.dne]
  constructor
  · intro h; exact_mod_cast h
  · intro h; exact_mod_cast h

theorem Q.ble_congr {a a' b b' : Q} (h1 : a.val = a'.val) (h2 : b.val = b'.val) :
    a.ble b = a'.ble b' := by
  cases hb : a'.ble b' with
  | true => exact (Q.ble_iff a b).mpr (h1 ▸ h2 ▸ (Q.ble_iff a' b').mp hb)
  | false =>
    cases hb2 : a.ble b with
    | false => rfl
    | true =>
      have := (Q.ble_iff a' b').mpr (h1 ▸ h2 ▸ (Q.ble_iff a b).mp hb2)
      rw [hb] at this
      exact this.symm

/-- A planar point. -/
abbrev Point : Type := Q × Q

/-- Value-level equality of points. -/
def pbeq (p r : Point) : Bool := p.1.beq r.1 && p.2.beq r.2

/-- Squared Euclidean distance between two points. -/
def dist2 (p r : Point) : Q :=
  ((p.1.sub r.1).mul (p.1.sub r.1)).add ((p.2.sub r.2).mul (p.2.sub r.2))

/-- Modelled from the spec: tolerance-based point comparison `close(p, q, ε)`
(`workflow.utils.close` restricted to points; the utils module is absent
from the sources).  True iff `p` and `r` lie within `eps` of one another. -/
def closeQ (p r : Point) (eps : Q) : Bool := (dist2 p r).ble (eps.mul eps)

theorem val_dist2 (p r : Point) :
    (dist2 p r).val = (p.1.val - r.1.val) ^ 2 + (p.2.val - r.2.val) ^ 2 := by
  unfold dist2
  rw [Q.val_add, Q.val_mul, Q.val_mul, Q.val_sub, Q.val_sub]
  ring

theorem closeQ_iff (p r : Point) (eps : Q) :
    closeQ p r eps = true ↔
      (p.1.val - r.1.val) ^ 2 + (p.2.val - r.2.val) ^ 2 ≤ eps.val ^ 2 := by
  unfold closeQ
  rw [Q.ble_iff, val_dist2, Q.val_mul]
  ring_nf

theorem closeQ_refl (p : Point) (eps : Q) : closeQ p p eps = true := by
  rw [closeQ_iff]
  simp [sq_nonneg]

theorem closeQ_symm (p r : Point) (eps : Q) : closeQ p r eps = closeQ r p eps := by
  unfold closeQ
  refine Q.ble_congr ?_ rfl
  rw [val_dist2, val_dist2]
  ring

theorem pbeq_of_closeQ_zero {p r : Point} (h : closeQ p r ⟨0, 1, one_pos⟩ = true) :
    p.1.val = r.1.val ∧ p.2.val = r.2.val := by
  rw [closeQ_iff] at h
  have h0 : (Q.val ⟨0, 1, one_pos⟩) = 0 := by unfold Q.val; norm_num
  rw [h0] at h
  have h1 := sq_nonneg (p.1.val - r.1.val)
  have h2 := sq_nonneg (p.2.val - r.2.val)
  constructor
  · nlinarith
  · nlinarith

/-! ## Reprojection wrappers, embedded from `workflow/warp.py`

The projection library (`pyproj.transform`), the raster library
(`rasterio.warp.calculate_default_transform` / `reproject`) and the CRS
representation are external collaborators; they enter the embedding as
opaque parameters.  Logging calls have no modelled effect. -/

/-- A GeoJSON-style geometry: a geometry type tag plus a list of coordinate
rings (`feature['geometry']['coordinates']`). -/
structure Geometry where
  gtype : String
  coordinates : List (List Point)

/-- A GeoJSON-style feature as consumed by `warp_shape`: a type tag,
properties, and a geometry.  Only the fields `warp_shape` touches are
modelled; properties are an association list. -/
structure Feature where
  ftype : String
  properties : List (String × String)
  geometry : Geometry

/-- Embedded from `warp.py::warp_shape`.  If the CRSs coincide the feature is
returned as is; otherwise only the first ring of the geometry is replaced by
its reprojection (the Python code rebinds
`feature['geometry']['coordinates'][0]` in place and returns the same
feature; the embedding returns the correspondingly updated record). -/
def warp_shape {CRS : Type} [DecidableEq CRS]
    (transform : CRS → CRS → List Point → List Point)
    (feature : Feature) (old_crs new_crs : CRS) : Feature :=
  if old_crs = new_crs then feature
  else
    { feature with
      geometry :=
        { feature.geometry with
          coordinates :=
            feature.geometry.coordinates.set 0
              (transform old_crs new_crs feature.geometry.coordinates.headI) } }

/-- A raster profile, restricted to the keys `warp_raster` reads or writes:
the CRS, the affine transform (abstract type `A`), and the pixel width and
height. -/
structure RProfile (CRS A : Type) where
  crs : CRS
  affine : A
  width : Nat
  height : Nat
  deriving DecidableEq

/-- Errors `warp_raster` can raise: the explicit `RuntimeError` for a
profile/CRS mismatch, and the `NameError` reached when the reprojection
branch runs with `dst_height`/`dst_width`/`dst_affine` never assigned. -/
inductive WarpErr where
  | runtimeError
  | nameError
  deriving DecidableEq

/-- Embedded from `warp.py::warp_raster`.  `calcTransform` stands for
`rasterio.warp.calculate_default_transform` (returning affine, width,
height) and `reproject` for `rasterio.warp.reproject` composed with the
`np.empty` allocation.  The Python locals `dst_affine`, `dst_width`,
`dst_height` are assigned only in the `dst_profile is None` branch; a path
that reaches the reprojection code without them raises `NameError`, which
the embedding returns as `WarpErr.nameError`. -/
def warp_raster {CRS A Arr : Type} [DecidableEq CRS]
    (default_crs : CRS)
    (calcTransform : CRS → CRS → Nat → Nat → A × Nat × Nat)
    (reproject : Arr → A → CRS → A → CRS → Nat → Nat → Arr)
    (src_profile : RProfile CRS A) (src_array : Arr)
    (dst_crs? : Option CRS) (dst_profile? : Option (RProfile CRS A)) :
    Except WarpErr (RProfile CRS A × Arr) :=
  -- `if dst_profile is None and dst_crs is None: dst_crs = default_crs()`
  let dcrs : Option CRS :=
    if dst_profile?.isNone && dst_crs?.isNone then some default_crs else dst_crs?
  match dst_profile?, dcrs with
  | some p, some c =>
      -- both given: mismatch is a RuntimeError; otherwise the locals are
      -- never assigned, so any actual reprojection raises NameError
      if c ≠ p.crs then .error .runtimeError
      else if c = src_profile.crs then .ok (src_profile, src_array)
      else .error .nameError
  | some p, none =>
      -- `dst_crs = dst_profile['crs']`; locals never assigned
      if p.crs = src_profile.crs then .ok (src_profile, src_array)
      else .error .nameError
  | none, some c =>
      -- build the destination profile and the locals
      let t := calcTransform src_profile.crs c src_profile.width src_profile.height
      let dstp : RProfile CRS A :=
        { src_profile with crs := c, affine := t.1, width := t.2.1, height := t.2.2 }
      if c = src_profile.crs then .ok (src_profile, src_array)
      else
        .ok (dstp,
          reproject src_array src_profile.affine src_profile.crs t.1 c t.2.1 t.2.2)
  | none, none =>
      -- unreachable: when both inputs are absent, `dcrs` was set to the default
      .error .nameError

/-! ## Cleanup pass

Modelled from the spec (§4.1): `workflow.hydrography.quick_cleanup` merges
vertices that lie within a fixed, very small epsilon of one another so that
coordinates that should be identical become identical; it is structure
preserving (no point is added, dropped or reordered) and idempotent.  The
hydrography module is absent from the sources. -/

/-- Integer-coordinate point. -/
def ip (x y : Int) : Point := (qq x 1, qq y 1)

/-- The fixed merge epsilon of the cleanup pass: on the order of
floating-point noise, far below the user-facing snap tolerance. -/
def cleanupEps : Q := qq 1 10000000

/-- One merge step: if `p` lies within `cleanupEps` of an already registered
canonical point, `p` is replaced by the first such canonical; otherwise `p`
is registered as a new canonical point. -/
def canonicalize (canon : List Point) (p : Point) : List Point × Point :=
  match canon.find? (fun c => closeQ c p cleanupEps) with
  | some c => (canon, c)
  | none => (canon ++ [p], p)

/-- Merge the points of one polyline, threading the canonical registry. -/
def cleanPts (canon : List Point) : List Point → List Point × List Point
  | [] => (canon, [])
  | p :: ps =>
    let cp := canonicalize canon p
    let rest := cleanPts cp.1 ps
    (rest.1, cp.2 :: rest.2)

/-- Merge the points of a collection of polylines, threading one global
canonical registry through the whole collection. -/
def cleanLines (canon : List Point) : List (List Point) → List Point × List (List Point)
  | [] => (canon, [])
  | l :: ls =>
    let cl := cleanPts canon l
    let rest := cleanLines cl.1 ls
    (rest.1, cl.2 :: rest.2)

/-- Modelled from the spec: `workflow.hydrography.quick_cleanup`.  Point
merging over the whole collection, starting from an empty registry. -/
def quick_cleanup (X : List (List Point)) : List (List Point) :=
  (cleanLines [] X).2

/-- The canonical registry invariant: registered points are pairwise more
than `cleanupEps` apart. -/
def Sep (K : List Point) : Prop :=
  K.Pairwise (fun a b => closeQ a b cleanupEps = false)

theorem eq_of_close_of_sep {K : List Point} (hK : Sep K) {c r : Point}
    (hc : c ∈ K) (hr : r ∈ K) (hcr : closeQ c r cleanupEps = true) : c = r := by
  induction K with
  | nil => cases hc
  | cons a K ih =>
    have ha : ∀ b ∈ K, closeQ a b cleanupEps = false := (List.pairwise_cons.mp hK).1
    have hK' : Sep K := (List.pairwise_cons.mp hK).2
    rcases List.mem_cons.mp hc with rfl | hc'
    · rcases List.mem_cons.mp hr with rfl | hr'
      · rfl
      · exact absurd hcr (by simp [ha r hr'])
    · rcases List.mem_cons.mp hr with rfl | hr'
      · have := ha c hc'
        rw [closeQ_symm] at this
        exact absurd hcr (by simp [this])
      · exact ih hK' hc' hr'

theorem canonicalize_inv {canon : List Point} (h : Sep canon) (p : Point) :
    Sep (canonicalize canon p).1 ∧ (∀ c ∈ canon, c ∈ (canonicalize canon p).1) ∧
      (canonicalize canon p).2 ∈ (canonicalize canon p).1 := by
  unfold canonicalize
  cases hf : canon.find? (fun c => closeQ c p cleanupEps) with
  | some c =>
    exact ⟨h, fun c' hc' => hc', List.mem_of_find?_eq_some hf⟩
  | none =>
    have hno : ∀ c ∈ canon, closeQ c p cleanupEps = false := by
      intro c hc
      have := List.find?_eq_none.mp hf c hc
      simpa using this
    refine ⟨?_, ?_, ?_⟩
    · unfold Sep
      rw [List.pairwise_append]
      exact ⟨h, List.pairwise_singleton _ _,
        fun a ha b hb => by
          simp only [List.mem_singleton] at hb
          subst hb
          exact hno a ha⟩
    · intro c hc; exact List.mem_append_left _ hc
    · exact List.mem_append_right _ (List.mem_singleton_self p)

theorem cleanPts_inv (ps : List Point) :
    ∀ canon, Sep canon →
      Sep (cleanPts canon ps).1 ∧ (∀ c ∈ canon, c ∈ (cleanPts canon ps).1) ∧
        (∀ r ∈ (cleanPts canon ps).2, r ∈ (cleanPts canon ps).1) := by
  induction ps with
  | nil => intro canon h; exact ⟨h, fun c hc => hc, by intro r hr; cases hr⟩
  | cons p ps ih =>
    intro canon h
    obtain ⟨h1, h2, h3⟩ := canonicalize_inv h p
    obtain ⟨g1, g2, g3⟩ := ih (canonicalize canon p).1 h1
    refine ⟨g1, fun c hc => g2 _ (h2 c hc), ?_⟩
    intro r hr
    simp only [cleanPts, List.mem_cons] at hr
    rcases hr with rfl | hr
    · exact g2 _ h3
    · exact g3 r hr

theorem cleanLines_inv (X : List (List Point)) :
    ∀ canon, Sep canon →
      Sep (cleanLines canon X).1 ∧ (∀ c ∈ canon, c ∈ (cleanLines canon X).1) ∧
        (∀ l ∈ (cleanLines canon X).2, ∀ r ∈ l, r ∈ (cleanLines canon X).1) := by
  induction X with
  | nil => intro canon h; exact ⟨h, fun c hc => hc, by intro l hl; cases hl⟩
  | cons l ls ih =>
    intro canon h
    obtain ⟨h1, h2, h3⟩ := cleanPts_inv l canon h
    obtain ⟨g1, g2, g3⟩ := ih (cleanPts canon l).1 h1
    refine ⟨g1, fun c hc => g2 _ (h2 c hc), ?_⟩
    intro l' hl' r hr
    simp only [cleanLines, List.mem_cons] at hl'
    rcases hl' with rfl | hl'
    · exact g2 _ (h3 r hr)
    · exact g3 l' hl' r hr

theorem cleanPts_fixed {K : List Point} (hK : Sep K) (ps : List Point) :
    ∀ J, (∀ c ∈ J, c ∈ K) → (∀ r ∈ ps, r ∈ K) → (cleanPts J ps).2 = ps := by
  induction ps with
  | nil => intro J _ _; rfl
  | cons p ps ih =>
    intro J hJ hps
    have hp : p ∈ K := hps p (List.mem_cons_self _ _)
    simp only [cleanPts]
    unfold canonicalize
    cases hf : J.find? (fun c => closeQ c p cleanupEps) with
    | some c =>
      have hc : c ∈ K := hJ c (List.mem_of_find?_eq_some hf)
      have hcp := List.find?_some hf
      have : c = p := eq_of_close_of_sep hK hc hp (by simpa using hcp)
      subst this
      simp only [List.cons.injEq, true_and]
      exact ih J hJ (fun r hr => hps r (List.mem_cons_of_mem _ hr))
    | none =>
      simp only [List.cons.injEq, true_and]
      refine ih (J ++ [p]) ?_ (fun r hr => hps r (List.mem_cons_of_mem _ hr))
      intro c hc
      rcases List.mem_append.mp hc with hc' | hc'
      · exact hJ c hc'
      · simp only [List.mem_singleton] at hc'; subst hc'; exact hp

theorem cleanPts_canon_sub {K : List Point} (ps : List Point) :
    ∀ J, (∀ c ∈ J, c ∈ K) → (∀ r ∈ ps, r ∈ K) →
      ∀ c ∈ (cleanPts J ps).1, c ∈ K := by
  induction ps with
  | nil => intro J hJ _ c hc; exact hJ c hc
  | cons p ps ih =>
    intro J hJ hps c hc
    simp only [cleanPts] at hc
    have hp : p ∈ K := hps p (List.mem_cons_self _ _)
    refine ih _ ?_ (fun r hr => hps r (List.mem_cons_of_mem _ hr)) c hc
    intro e he
    unfold canonicalize at he
    cases hf : J.find? (fun c => closeQ c p cleanupEps) with
    | some x => rw [hf] at he; exact hJ e he
    | none =>
      rw [hf] at he
      rcases List.mem_append.mp he with he' | he'
      · exact hJ e he'
      · simp only [List.mem_singleton] at he'; subst he'; exact hp

theorem cleanLines_fixed {K : List Point} (hK : Sep K) (X : List (List Point)) :
    ∀ J, (∀ c ∈ J, c ∈ K) → (∀ l ∈ X, ∀ r ∈ l, r ∈ K) →
      (cleanLines J X).2 = X := by
  induction X with
  | nil => intro J _ _; rfl
  | cons l ls ih =>
    intro J hJ hX
    have hl := hX l (List.mem_cons_self _ _)
    simp only [cleanLines]
    have hfix : (cleanPts J l).2 = l := cleanPts_fixed hK l J hJ hl
    have hJ' : ∀ c ∈ (cleanPts J l).1, c ∈ K := cleanPts_canon_sub l J hJ hl
    rw [hfix, ih _ hJ' (fun m hm r hr => hX m (List.mem_cons_of_mem _ hm) r hr)]

theorem cleanPts_forall2 (ps : List Point) :
    ∀ canon,
      List.Forall₂ (fun p r => closeQ p r cleanupEps = true) ps (cleanPts canon ps).2 := by
  induction ps with
  | nil => intro canon; exact List.Forall₂.nil
  | cons p ps ih =>
    intro canon
    simp only [cleanPts]
    refine List.Forall₂.cons ?_ (ih _)
    unfold canonicalize
    cases hf : canon.find? (fun c => closeQ c p cleanupEps) with
    | some c =>
      have := List.find?_some hf
      rw [closeQ_symm]
      simpa using this
    | none => simp [closeQ_refl]

theorem cleanLines_forall2 (X : List (List Point)) :
    ∀ canon, List.Forall₂
      (List.Forall₂ (fun p r => closeQ p r cleanupEps = true)) X (cleanLines canon X).2 := by
  induction X with
  | nil => intro canon; exact List.Forall₂.nil
  | cons l ls ih =>
    intro canon
    exact List.Forall₂.cons (cleanPts_forall2 l canon) (ih _)

/-- Modelled from the spec/tests: the symmetric tolerance comparison
(`assert_close` of the test harness; `workflow.test.shapes` is absent from
the sources).  Every point of each collection must be within `eps` of some
point of the other. -/
def closePointSets (X Y : List (List Point)) (eps : Q) : Bool :=
  X.all fun l => l.all fun p => Y.any fun m => m.any fun r => closeQ p r eps

/-- Symmetric collection closeness used by the cleanup tests. -/
def assert_close (X Y : List (List Point)) (eps : Q) : Bool :=
  closePointSets X Y eps && closePointSets Y X eps

/-- Modelled from the spec: the `rivers` fixture of the test harness
(`workflow.test.shapes` is absent).  A small clean drainage network that
contains the vertex `(15, -3)` named by the cleanup scenario. -/
def riversFixture : List (List Point) :=
  [[ip 5 2, ip 10 0], [ip 5 (-2), ip 10 0], [ip 10 0, ip 15 (-3)]]

/-- The near-duplicate polyline injected by the cleanup scenario:
`[(15, -3.00000001), (15, -3)]`. -/
def extraSeg : List Point :=
  [(qq 15 1, qq (-300000001) 100000000), ip 15 (-3)]

/-! ## Drainage-tree model

Modelled from the spec (§3, §4.2, §4.5) and the expectations of the test
harness: `workflow.tree` and `workflow.hydrography.make_global_tree` are
absent from the sources.  A tree node owns one reach's polyline and an
ordered list of child nodes; in this inductive representation parent
references are implicit and a depth-first traversal visits every node
exactly once by construction.  The direction of the head-to-tail link
follows the tests (`check2`, `check3`): a child reach flows into its
parent, so the child's last (downstream) point coincides with the parent's
first (upstream) point. -/

inductive Tree where
  | node (seg : List Point) (children : List Tree)

/-- Fallback point for head/last of an empty polyline (never reached on
valid geometry). -/
def pzero : Point := ip 0 0

def headP (l : List Point) : Point := l.headD pzero

def lastP (l : List Point) : Point := l.getLastD pzero

def Tree.seg : Tree → List Point
  | .node s _ => s

def Tree.children : Tree → List Tree
  | .node _ cs => cs

mutual

/-- Depth-first, pre-order traversal: a node's reach before its children's. -/
def Tree.dfs : Tree → List (List Point)
  | .node s cs => s :: Tree.dfsF cs

def Tree.dfsF : List Tree → List (List Point)
  | [] => []
  | t :: ts => Tree.dfs t ++ Tree.dfsF ts

end

mutual

def Tree.size : Tree → Nat
  | .node _ cs => 1 + Tree.sizeF cs

def Tree.sizeF : List Tree → Nat
  | [] => 0
  | t :: ts => Tree.size t + Tree.sizeF ts

end

/-- No two consecutive duplicate points (by value). -/
def noDupPts : List Point → Bool
  | [] => true
  | [_] => true
  | p :: r :: rest => !pbeq p r && noDupPts (r :: rest)

/-- A valid reach polyline: at least two points, no consecutive duplicates. -/
def validSeg (l : List Point) : Bool := decide (2 ≤ l.length) && noDupPts l

mutual

/-- Modelled from the spec (§4.5) and tests: the consistency predicate over
one tree.  Geometry validity of every node plus head-to-tail continuity of
every child with its parent within near-zero tolerance; the "each node
visited exactly once" clause holds intrinsically for this inductive
representation. -/
def Tree.consistentB : Tree → Bool
  | .node s cs => validSeg s && Tree.consistentChildrenB s cs

def Tree.consistentChildrenB : List Point → List Tree → Bool
  | _, [] => true
  | s, t :: ts =>
    closeQ (lastP t.seg) (headP s) cleanupEps && t.consistentB &&
      Tree.consistentChildrenB s ts

end

/-- Modelled from the spec and tests: `workflow.tree.is_consistent`. -/
def is_consistent (t : Tree) : Bool := t.consistentB

mutual

/-- Exact consistency: as `Tree.consistentB` but with the child's last point
equal (by value) to the parent's first point.  This is what the tree
builder establishes and what the snapping engine preserves. -/
def Tree.consistentE : Tree → Bool
  | .node s cs => validSeg s && Tree.consistentChildrenE s cs

def Tree.consistentChildrenE : List Point → List Tree → Bool
  | _, [] => true
  | s, t :: ts =>
    pbeq (lastP t.seg) (headP s) && t.consistentE && Tree.consistentChildrenE s ts

end

mutual

/-- All (parent geometry, child geometry) pairs of a tree. -/
def Tree.pairs : Tree → List (List Point × List Point)
  | .node s cs => Tree.pairsF s cs

def Tree.pairsF : List Point → List Tree → List (List Point × List Point)
  | _, [] => []
  | s, t :: ts => (s, t.seg) :: (t.pairs ++ Tree.pairsF s ts)

end

theorem pbeq_iff (p r : Point) :
    pbeq p r = true ↔ p.1.val = r.1.val ∧ p.2.val = r.2.val := by
  unfold pbeq
  rw [Bool.and_eq_true, Q.beq_iff, Q.beq_iff]

theorem closeQ_of_pbeq {p r : Point} (h : pbeq p r = true) (eps : Q) :
    closeQ p r eps = true := by
  obtain ⟨h1, h2⟩ := (pbeq_iff p r).mp h
  rw [closeQ_iff, h1, h2]
  simp [sq_nonneg]

instance : DecidableEq Q := fun a b =>
  if h : a.n = b.n ∧ a.d = b.d then
    isTrue (by cases a; cases b; simp_all)
  else isFalse (by intro hab; subst hab; exact h ⟨rfl, rfl⟩)

mutual

theorem consistentB_pairs : ∀ t : Tree, t.consistentB = true →
    ∀ pr ∈ t.pairs, closeQ (lastP pr.2) (headP pr.1) cleanupEps = true
  | .node s cs, h => by
    intro pr hpr
    rw [Tree.consistentB, Bool.and_eq_true] at h
    rw [Tree.pairs] at hpr
    exact consistentChildrenB_pairs s cs h.2 pr hpr

theorem consistentChildrenB_pairs : ∀ (s : List Point) (cs : List Tree),
    Tree.consistentChildrenB s cs = true →
    ∀ pr ∈ Tree.pairsF s cs, closeQ (lastP pr.2) (headP pr.1) cleanupEps = true
  | s, [], _ => by
    intro pr hpr
    rw [Tree.pairsF] at hpr
    cases hpr
  | s, t :: ts, h => by
    intro pr hpr
    rw [Tree.consistentChildrenB, Bool.and_eq_true, Bool.and_eq_true] at h
    obtain ⟨⟨h1, h2⟩, h3⟩ := h
    rw [Tree.pairsF] at hpr
    rcases List.mem_cons.mp hpr with rfl | hpr'
    · exact h1
    · rcases List.mem_append.mp hpr' with hl | hr
      · exact consistentB_pairs t h2 pr hl
      · exact consistentChildrenB_pairs s ts h3 pr hr

end

mutual

theorem consistentB_of_E : ∀ t : Tree, t.consistentE = true → t.consistentB = true
  | .node s cs, h => by
    rw [Tree.consistentE, Bool.and_eq_true] at h
    rw [Tree.consistentB, Bool.and_eq_true]
    exact ⟨h.1, consistentChildrenB_of_E s cs h.2⟩

theorem consistentChildrenB_of_E : ∀ (s : List Point) (cs : List Tree),
    Tree.consistentChildrenE s cs = true → Tree.consistentChildrenB s cs = true
  | _, [], _ => rfl
  | s, t :: ts, h => by
    rw [Tree.consistentChildrenE, Bool.and_eq_true, Bool.and_eq_true] at h
    rw [Tree.consistentChildrenB, Bool.and_eq_true, Bool.and_eq_true]
    exact ⟨⟨closeQ_of_pbeq h.1.1 _, consistentB_of_E t h.1.2⟩,
      consistentChildrenB_of_E s ts h.2⟩

end

/-- The two-node tree observed after the cross-boundary snapping scenario:
a root reach `[(10,0),(15,0)]` with one child reach `[(5,0),(10,0)]`,
asserted consistent by the tests. -/
def exTree : Tree :=
  Tree.node [ip 10 0, ip 15 0] [Tree.node [ip 5 0, ip 10 0] []]

/-- C2 counterexample: `exTree` satisfies the consistency predicate (as the
tests demand), yet its sole non-root node's FIRST point `(5,0)` is far from
its parent's LAST point `(15,0)` — the claim's direction of head-to-tail
continuity is the wrong way round. -/
theorem head_tail_as_stated_false :
    is_consistent exTree = true ∧
      (exTree.pairs.all fun pr => closeQ (headP pr.2) (lastP pr.1) cleanupEps) = false := by
  decide

/-- C2 (amended): for every non-root node of a consistent tree, the node's
geometry's LAST point equals its parent's geometry's FIRST point within
near-zero tolerance. -/
theorem head_tail_continuity (t : Tree) (h : is_consistent t = true) :
    ∀ pr ∈ t.pairs, closeQ (lastP pr.2) (headP pr.1) cleanupEps = true :=
  consistentB_pairs t h

theorem head_tail_continuity_witness :
    closeQ (lastP [ip 5 0, ip 10 0]) (headP [ip 10 0, ip 15 0]) cleanupEps = true :=
  head_tail_continuity exTree (by decide)
    ([ip 10 0, ip 15 0], [ip 5 0, ip 10 0]) (by decide)

/-! ## Tree builder

Modelled from the spec (§4.2): `workflow.hydrography.make_global_tree`
turns a cleaned collection of reach polylines into a forest.  A reach's
parent is the reach whose start coordinate exactly matches its end
coordinate (coordinates are exact after cleanup, so the match is by value);
a reach with no parent is a root.  The builder fails on an ambiguous
confluence (two candidate parents) or on cyclic parentage (detected when
the built forest does not account for every reach). -/

/-- Indices of the candidate parents of reach `i`: reaches whose start
coordinate matches reach `i`'s end coordinate. -/
def parentsOf (rs : List (List Point)) (i : Nat) : List Nat :=
  (List.range rs.length).filter fun j =>
    j ≠ i && pbeq (headP (rs.getD j [])) (lastP (rs.getD i []))

/-- Indices of the children of reach `j`: reaches whose end coordinate
matches reach `j`'s start coordinate. -/
def childrenIdx (rs : List (List Point)) (j : Nat) : List Nat :=
  (List.range rs.length).filter fun i =>
    i ≠ j && pbeq (lastP (rs.getD i [])) (headP (rs.getD j []))

/-- Indices of the root (outlet) reaches: reaches without a parent. -/
def rootIdx (rs : List (List Point)) : List Nat :=
  (List.range rs.length).filter fun i => (parentsOf rs i).isEmpty

/-- One layer of tree building: build the trees rooted at the reaches of
`js`, using `rec` (tree building with one unit of fuel less) for their
children. -/
def buildStep (rs : List (List Point)) (rec : List Nat → Option (List Tree)) :
    List Nat → Option (List Tree)
  | [] => some []
  | j :: js =>
    match rs[j]?, rec (childrenIdx rs j), buildStep rs rec js with
    | some s, some cs, some ts => some (Tree.node s cs :: ts)
    | _, _, _ => none

/-- Build the trees rooted at the given reach indices; fuel bounds the
recursion depth, so cyclic parentage exhausts it and fails. -/
def buildF (rs : List (List Point)) (fuel : Nat) : List Nat → Option (List Tree) :=
  Nat.rec (fun js => if js.isEmpty then some [] else none)
    (fun _ rec js => buildStep rs rec js) fuel

theorem buildF_zero (rs : List (List Point)) (js : List Nat) :
    buildF rs 0 js = if js.isEmpty then some [] else none := rfl

theorem buildF_succ (rs : List (List Point)) (fuel : Nat) (js : List Nat) :
    buildF rs (fuel + 1) js = buildStep rs (buildF rs fuel) js := rfl

/-- Modelled from the spec: `workflow.hydrography.make_global_tree`.
Build one tree per root; fail on an ambiguous confluence, or when the
forest does not cover every reach exactly once (cyclic or duplicated
parentage). -/
def make_global_tree (rs : List (List Point)) : Option (List Tree) :=
  if (List.range rs.length).all (fun i => decide ((parentsOf rs i).length ≤ 1)) then
    match buildF rs (rs.length + 1) (rootIdx rs) with
    | none => none
    | some forest =>
      if Tree.sizeF forest == rs.length then some forest else none
  else none

/-! ## HUC topology store

Modelled from the spec (§4.3): `workflow.hucs.HUCs` decomposes a list of
polygons into shared boundary arcs.  Adjacent polygons traverse a shared
run of edges in opposite directions, so an edge of one ring is shared iff
its reversal is an edge of another ring; maximal runs of equally-classified
edges become segments, registered once and referenced with an orientation
flag by each owning polygon.  The hucs module is absent from the sources. -/

structure HUCs where
  segments : List (List Point)
  gons : List (List (Nat × Bool))

def orient (s : List Point) (fwd : Bool) : List Point := if fwd then s else s.reverse

/-- Concatenate oriented segment geometries, dropping each segment's first
point (it repeats the previous segment's last point); the result is a
closed ring whose last point repeats its first. -/
def joinSegs : List (List Point) → List Point
  | [] => []
  | s :: rest => s ++ (rest.map (fun r => r.drop 1)).flatten

/-- `polygon(i)`: reconstruct polygon `i`'s ring from its referenced
segments, in recorded order and orientation. -/
def HUCs.polygon (h : HUCs) (i : Nat) : List Point :=
  joinSegs ((h.gons.getD i []).map fun sb => orient (h.segments.getD sb.1 []) sb.2)

/-- `len(store)`: the polygon count. -/
def HUCs.len (h : HUCs) : Nat := h.gons.length

/-- Value-level equality of point lists. -/
def listPbeq : List Point → List Point → Bool
  | [], [] => true
  | p :: ps, r :: rst => pbeq p r && listPbeq ps rst
  | _, _ => false

/-- The cyclic edge list of an unclosed ring vertex list. -/
def ringEdges (ring : List Point) : List (Point × Point) :=
  ring.zip (ring.rotate 1)

/-- The polygon (if any) sharing edge `e` of polygon `i`: a different
polygon whose ring walks the reversed edge. -/
def edgeSharedWith (polys : List (List Point)) (i : Nat) (e : Point × Point) :
    Option Nat :=
  (List.range polys.length).find? fun j =>
    j ≠ i && (ringEdges (polys.getD j [])).any fun f => pbeq f.1 e.2 && pbeq f.2 e.1

/-- Index of the first classification change around the ring (0 when every
edge is classified alike). -/
def firstBreak (cls : List (Option Nat)) : Nat :=
  let n := cls.length
  match (List.range n).find? fun k =>
    cls.getD ((k + n - 1) % n) none ≠ cls.getD k none with
  | some k => k
  | none => 0

/-- Group consecutive equally-classified edges into runs (the input starts
at a classification break, so no wrap-around merging is needed). -/
def groupRuns : List ((Point × Point) × Option Nat) →
    List (List (Point × Point) × Option Nat)
  | [] => []
  | (e, c) :: rest =>
    match groupRuns rest with
    | [] => [([e], c)]
    | (g, c') :: gs =>
      if c = c' then (e :: g, c') :: gs else ([e], c) :: (g, c') :: gs

/-- The point chain of a run of consecutive edges. -/
def chainOf (run : List (Point × Point)) : List Point :=
  match run with
  | [] => []
  | e :: _ => e.1 :: run.map (·.2)

/-- Register polygon `i`'s runs: a run shared with an already-processed
polygon references that polygon's registered segment (reversed); any other
run registers a new segment. -/
def addPoly (polys : List (List Point)) (acc : HUCs) (i : Nat) : HUCs :=
  let ring := polys.getD i []
  let edges := ringEdges ring
  let cls := edges.map (edgeSharedWith polys i)
  let paired := (edges.zip cls).rotate (firstBreak cls)
  let runs := groupRuns paired
  let step := fun (st : HUCs × List (Nat × Bool)) (rc : List (Point × Point) × Option Nat) =>
    let chain := chainOf rc.1
    let fresh := fun (_ : Unit) =>
      ((⟨st.1.segments ++ [chain], st.1.gons⟩ : HUCs),
        st.2 ++ [(st.1.segments.length, true)])
    match rc.2 with
    | some j =>
      if j < i then
        match st.1.segments.findIdx? (fun s => listPbeq s chain.reverse) with
        | some sid => (st.1, st.2 ++ [(sid, false)])
        | none => fresh ()
      else fresh ()
    | none => fresh ()
  let res := runs.foldl step (acc, [])
  ⟨res.1.segments, res.1.gons ++ [res.2]⟩

/-- Modelled from the spec: construction of the HUC store from a list of
polygon rings (unclosed vertex lists). -/
def HUCs.make (polys : List (List Point)) : HUCs :=
  (List.range polys.length).foldl (addPoly polys) ⟨[], []⟩

/-! ## Geometric helpers for snapping -/

def qzero : Q := ⟨0, 1, one_pos⟩

def qone : Q := ⟨1, 1, one_pos⟩

/-- Strict order test. -/
def Q.blt (a b : Q) : Bool := !(b.ble a)

/-- The nearest point to `p` on the closed segment from `a` to `b`. -/
def nearestOnEdge (p a b : Point) : Point :=
  let ux := b.1.sub a.1
  let uy := b.2.sub a.2
  let len2 := (ux.mul ux).add (uy.mul uy)
  if len2.beq qzero then a
  else
    let t0 := (((p.1.sub a.1).mul ux).add ((p.2.sub a.2).mul uy)).div len2
    let t := if t0.ble qzero then qzero else if qone.ble t0 then qone else t0
    (a.1.add (t.mul ux), a.2.add (t.mul uy))

/-- Nearest point of a polyline to `p`, with its squared distance; the
earliest edge wins ties. -/
def nearestOnSeg (p : Point) : List Point → Option (Q × Point)
  | [] => none
  | [_] => none
  | a :: b :: rest =>
    let pt := nearestOnEdge p a b
    let d := dist2 p pt
    match nearestOnSeg p (b :: rest) with
    | none => some (d, pt)
    | some (d', pt') => if d.ble d' then some (d, pt) else some (d', pt')

/-- The consecutive edges of a polyline. -/
def edgesOfPts : List Point → List (Point × Point)
  | [] => []
  | [_] => []
  | a :: b :: rest => (a, b) :: edgesOfPts (b :: rest)

/-- Point-near-ring test: `p` lies within `eps` of one of the ring's edges
(ring given in closed form, last point repeating the first). -/
def ptNearRing (p : Point) (ring : List Point) (eps : Q) : Bool :=
  (edgesOfPts ring).any fun e =>
    (dist2 p (nearestOnEdge p e.1 e.2)).ble (eps.mul eps)

/-- Modelled from the spec/tests: tolerance comparison of two closed rings
(`workflow.utils.close` on polygons): every vertex of each ring lies within
`eps` of the other ring's boundary. -/
def close_ring (x y : List Point) (eps : Q) : Bool :=
  (x.all fun p => ptNearRing p y eps) && (y.all fun p => ptNearRing p x eps)

/-! ## Snapping engine

Modelled from the spec (§4.4): three kinds of adjustment in order —
endpoint snap (river endpoints move onto nearby boundary arcs, with a
vertex inserted), boundary snap (boundary vertices move onto nearby river
endpoints), crossing cut (a vertex is threaded through each river/boundary
crossing and, when `cut_intersections` is set, the reach is split there).
Every point carries a moved/inserted flag; an adjustment that would move an
already-adjusted point is the spec's tolerance error and fails the whole
call.  The hydrography module is absent from the sources. -/

/-- A point together with its moved-or-inserted flag. -/
abbrev FPoint : Type := Point × Bool

def fpzero : FPoint := (pzero, false)

/-- The point values of a flagged polyline. -/
def fvals (pts : List FPoint) : List Point := pts.map (·.1)

/-- The snapping engine's working store: flagged segment geometries plus
the polygon references. -/
structure SnapH where
  segs : List (List FPoint)
  gons : List (List (Nat × Bool))

def SnapH.ofHUCs (h : HUCs) : SnapH :=
  ⟨h.segments.map (fun s => s.map (fun p => (p, false))), h.gons⟩

def SnapH.strip (h : SnapH) : HUCs :=
  ⟨h.segs.map fvals, h.gons⟩

def SnapH.setSeg (h : SnapH) (sid : Nat) (pts : List FPoint) : SnapH :=
  ⟨h.segs.set sid pts, h.gons⟩

/-- Flagged drainage tree used inside the snapping engine. -/
inductive TreeF where
  | node (seg : List FPoint) (children : List TreeF)

mutual

def TreeF.ofTree : Tree → TreeF
  | .node s cs => .node (s.map (fun p => (p, false))) (TreeF.ofTreeF cs)

def TreeF.ofTreeF : List Tree → List TreeF
  | [] => []
  | t :: ts => TreeF.ofTree t :: TreeF.ofTreeF ts

end

mutual

def TreeF.toTree : TreeF → Tree
  | .node s cs => .node (fvals s) (TreeF.toTreeF cs)

def TreeF.toTreeF : List TreeF → List Tree
  | [] => []
  | t :: ts => TreeF.toTree t :: TreeF.toTreeF ts

end

mutual

/-- All node geometries of a flagged tree, in pre-order. -/
def TreeF.geoms : TreeF → List (List FPoint)
  | .node s cs => s :: TreeF.geomsF cs

def TreeF.geomsF : List TreeF → List (List FPoint)
  | [] => []
  | t :: ts => TreeF.geoms t ++ TreeF.geomsF ts

end

/-- The endpoint values (first and last point of every node geometry) of a
flagged forest. -/
def endpointsF (f : List TreeF) : List Point :=
  (TreeF.geomsF f).foldr
    (fun s acc => headP (fvals s) :: lastP (fvals s) :: acc) []

/-- Combine two arc-point candidates: the earlier wins unless the later is
strictly closer. -/
def best3 (a b : Option (Q × Nat × Point)) : Option (Q × Nat × Point) :=
  match a, b with
  | none, r => r
  | some c, none => some c
  | some c, some c' => if Q.blt c'.1 c.1 then some c' else some c

/-- Best arc point over one polygon's boundary list. -/
def bestArcGon (h : SnapH) (p : Point) : List (Nat × Bool) → Option (Q × Nat × Point)
  | [] => none
  | sb :: rest =>
    best3 ((nearestOnSeg p (fvals (h.segs.getD sb.1 []))).map fun dq => (dq.1, sb.1, dq.2))
      (bestArcGon h p rest)

/-- Best arc point over a list of polygons. -/
def bestArcPolys (h : SnapH) (p : Point) :
    List (List (Nat × Bool)) → Option (Q × Nat × Point)
  | [] => none
  | gon :: rest => best3 (bestArcGon h p gon) (bestArcPolys h p rest)

/-- The nearest boundary-arc point to `p` over the whole store, with its
squared distance and owning segment: candidates are scanned by ascending
polygon id, then by position in the polygon's boundary list, and only a
strictly smaller distance replaces the incumbent (the spec's tie-break). -/
def bestArcPoint (h : SnapH) (p : Point) : Option (Q × Nat × Point) :=
  bestArcPolys h p h.gons

/-- Phase-1 endpoint map: an endpoint within `eps` of some boundary arc
moves onto the nearest arc point (and is flagged moved, unless it was
already exactly there). -/
def snapPtF (h : SnapH) (eps : Q) (pb : FPoint) : FPoint :=
  match bestArcPoint h pb.1 with
  | none => pb
  | some (d, _, pt) =>
    if d.ble (eps.mul eps) then (if pbeq pt pb.1 then pb else (pt, true)) else pb

/-- Apply a point map to the first and last element of a polyline only. -/
def fEnds (g : FPoint → FPoint) : List FPoint → List FPoint
  | [] => []
  | [p] => [g p]
  | p :: r :: rest =>
    g p :: ((r :: rest).dropLast ++ [g ((r :: rest).getLastD fpzero)])

mutual

def TreeF.mapGeom (g : List FPoint → List FPoint) : TreeF → TreeF
  | .node s cs => .node (g s) (TreeF.mapGeomF g cs)

def TreeF.mapGeomF (g : List FPoint → List FPoint) : List TreeF → List TreeF
  | [] => []
  | t :: ts => TreeF.mapGeom g t :: TreeF.mapGeomF g ts

end

/-- Index of the edge of a polyline nearest to `q` (with its squared
distance); the earliest edge wins ties. -/
def bestEdgeIdx (q : Point) : List Point → Option (Q × Nat)
  | [] => none
  | [_] => none
  | a :: b :: rest =>
    let d := dist2 q (nearestOnEdge q a b)
    match bestEdgeIdx q (b :: rest) with
    | none => some (d, 0)
    | some (d', k) => if d.ble d' then some (d, 0) else some (d', k + 1)

/-- Insert `q` (flagged as inserted) into a flagged polyline at its nearest
edge, unless a vertex with `q`'s value already exists. -/
def insertPtSeg (q : Point) (pts : List FPoint) : List FPoint :=
  if pts.any (fun fp => pbeq fp.1 q) then pts
  else
    match bestEdgeIdx q (fvals pts) with
    | none => pts
    | some (_, k) => pts.take (k + 1) ++ (q, true) :: pts.drop (k + 1)

def SnapH.insertAt (h : SnapH) (sid : Nat) (q : Point) : SnapH :=
  h.setSeg sid (insertPtSeg q (h.segs.getD sid []))

/-- Phase 1 (endpoint snap): move every river endpoint within `eps` of a
boundary arc onto the nearest arc point (decisions are taken against the
pre-phase store), inserting the landing point into the chosen segment. -/
def phase1 (eps : Q) (h : SnapH) (f : List TreeF) : SnapH × List TreeF :=
  let f' := TreeF.mapGeomF (fEnds (snapPtF h eps)) f
  let h' := (endpointsF f).foldl
    (fun acc p =>
      match bestArcPoint h p with
      | none => acc
      | some (d, sid, pt) =>
        if d.ble (eps.mul eps) then acc.insertAt sid pt else acc)
    h
  (h', f')

/-- Collapse a run of value-duplicates of `prev`, keeping later points. -/
def dedupeGo (prev : FPoint) : List FPoint → List FPoint
  | [] => []
  | r :: rest =>
    if pbeq prev.1 r.1 then dedupeGo prev rest else r :: dedupeGo r rest

/-- Collapse consecutive value-duplicate points. -/
def dedupeF : List FPoint → List FPoint
  | [] => []
  | p :: rest => p :: dedupeGo p rest

mutual

/-- Degenerate handling: deduplicate each node's geometry; a node collapsed
below two points is elided, its children spliced into its parent's place. -/
def TreeF.norm : TreeF → List TreeF
  | .node s cs =>
    if 2 ≤ (dedupeF s).length then [.node (dedupeF s) (TreeF.normF cs)]
    else TreeF.normF cs

def TreeF.normF : List TreeF → List TreeF
  | [] => []
  | t :: ts => TreeF.norm t ++ TreeF.normF ts

end

/-- Combine two endpoint candidates: the earlier wins unless the later is
strictly closer. -/
def best2 (a b : Option (Q × Point)) : Option (Q × Point) :=
  match a, b with
  | none, r => r
  | some c, none => some c
  | some c, some c' => if Q.blt c'.1 c.1 then some c' else some c

/-- The river endpoint nearest to `v` (squared distance; earliest endpoint
wins ties). -/
def bestEndpoint (E : List Point) (v : Point) : Option (Q × Point) :=
  match E with
  | [] => none
  | e :: rest => best2 (some (dist2 v e, e)) (bestEndpoint rest v)

/-- Phase-2 pass over one segment: every boundary vertex within `eps` of a
river endpoint moves onto that endpoint; moving an already-adjusted vertex
is a tolerance error. -/
def phase2Seg (eps : Q) (E : List Point) : List FPoint → Option (List FPoint)
  | [] => some []
  | vb :: rest =>
    let step : Option FPoint :=
      match bestEndpoint E vb.1 with
      | none => some vb
      | some (d, e) =>
        if d.ble (eps.mul eps) then
          if pbeq vb.1 e then some vb
          else if vb.2 then none else some (e, true)
        else some vb
    match step, phase2Seg eps E rest with
    | some fp, some rest' => some (fp :: rest')
    | _, _ => none

def segsMapM (g : List FPoint → Option (List FPoint)) :
    List (List FPoint) → Option (List (List FPoint))
  | [] => some []
  | s :: ss =>
    match g s, segsMapM g ss with
    | some s', some ss' => some (s' :: ss')
    | _, _ => none

/-- Phase 2 (boundary snap): conform boundary vertices to nearby river
endpoints. -/
def phase2 (eps : Q) (E : List Point) (h : SnapH) : Option SnapH :=
  match segsMapM (phase2Seg eps E) h.segs with
  | none => none
  | some segs' => some ⟨segs', h.gons⟩

/-- 2D cross product of vectors `(vx, vy)` and `(wx, wy)`. -/
def cross2 (vx vy wx wy : Q) : Q := (vx.mul wy).sub (vy.mul wx)

/-- Intersection point of the closed segments `a`–`b` and `c`–`d`
(none when parallel). -/
def segInter (a b c d : Point) : Option Point :=
  let rx := b.1.sub a.1
  let ry := b.2.sub a.2
  let sx := d.1.sub c.1
  let sy := d.2.sub c.2
  let den := cross2 rx ry sx sy
  if den.beq qzero then none
  else
    let qpx := c.1.sub a.1
    let qpy := c.2.sub a.2
    let t := (cross2 qpx qpy sx sy).div den
    let u := (cross2 qpx qpy rx ry).div den
    if qzero.ble t && t.ble qone && qzero.ble u && u.ble qone then
      some (a.1.add (t.mul rx), a.2.add (t.mul ry))
    else none

/-- First crossing of a river polyline with one segment polyline that is
not in the skip set (river edges scanned in order, then segment edges). -/
def findCrossSeg (skip : List Point) (riv segPts : List Point) : Option Point :=
  (edgesOfPts riv).findSome? fun e =>
    (edgesOfPts segPts).findSome? fun g =>
      match segInter e.1 e.2 g.1 g.2 with
      | some x => if skip.any (pbeq x) then none else some x
      | none => none

/-- First unresolved crossing of a river polyline with any boundary
segment, by ascending segment id. -/
def findCrossing (h : SnapH) (skip riv : List Point) : Option (Nat × Point) :=
  (List.range h.segs.length).findSome? fun sid =>
    match findCrossSeg skip riv (fvals (h.segs.getD sid [])) with
    | some x => some (sid, x)
    | none => none

/-- Combine two vertex candidates: the earlier wins unless the later is
strictly closer. -/
def bestV (a b : Option (Q × Nat)) : Option (Q × Nat) :=
  match a, b with
  | none, r => r
  | some c, none => some c
  | some c, some c' => if Q.blt c'.1 c.1 then some c' else some c

/-- Scan for the nearest eligible vertex within `eps` of `x`, starting at
position `k` of `n` (interior positions only when `interiorOnly`). -/
def bvGo (eps : Q) (x : Point) (interiorOnly : Bool) (n : Nat) :
    Nat → List FPoint → Option (Q × Nat)
  | _, [] => none
  | k, fp :: rest =>
    bestV
      (if (!interiorOnly || (decide (k ≠ 0) && decide (k ≠ n - 1)))
          && (dist2 fp.1 x).ble (eps.mul eps)
        then some (dist2 fp.1 x, k) else none)
      (bvGo eps x interiorOnly n (k + 1) rest)

/-- Nearest eligible vertex of a flagged polyline within `eps` of `x`
(interior vertices only when `interiorOnly`); earliest wins ties. -/
def bestVertexIdx (eps : Q) (x : Point) (interiorOnly : Bool)
    (pts : List FPoint) : Option (Q × Nat) :=
  bvGo eps x interiorOnly pts.length 0 pts

/-- Thread the point `x` through a flagged polyline: keep it if a vertex
with `x`'s value exists; else move the nearest eligible vertex within `eps`
onto `x` (a tolerance error if that vertex was already adjusted); else
insert `x` at the nearest edge. -/
def moveOrInsert (eps : Q) (x : Point) (interiorOnly : Bool)
    (pts : List FPoint) : Option (List FPoint) :=
  if pts.any (fun fp => pbeq fp.1 x) then some pts
  else
    match bestVertexIdx eps x interiorOnly pts with
    | some (_, k) =>
      if (pts.getD k fpzero).2 then none else some (pts.set k (x, true))
    | none =>
      match bestEdgeIdx x (fvals pts) with
      | none => some pts
      | some (_, k) => some (pts.take (k + 1) ++ (x, true) :: pts.drop (k + 1))

/-- Resolve the crossings of one node's geometry, one at a time: thread the
crossing point through both the river geometry and the boundary segment,
recording it as a cut point (or merely as resolved when
`cut_intersections` is false). -/
def cutNodeLoop (eps : Q) (cut : Bool) :
    Nat → SnapH → List FPoint → List Point → List Point →
      Option (SnapH × List FPoint × List Point)
  | 0, _, _, _, _ => none
  | fuel + 1, h, s, cuts, resolved =>
    match findCrossing h
        (headP (fvals s) :: lastP (fvals s) :: (cuts ++ resolved)) (fvals s) with
    | none => some (h, s, cuts)
    | some (sid, x) =>
      match moveOrInsert eps x true s, moveOrInsert eps x false (h.segs.getD sid []) with
      | some s', some seg' =>
        let h' := h.setSeg sid seg'
        if cut then cutNodeLoop eps cut fuel h' s' (x :: cuts) resolved
        else cutNodeLoop eps cut fuel h' s' cuts (x :: resolved)
      | _, _ => none

/-- Split a flagged polyline at every interior vertex whose value is a
recorded cut point; each piece ends, and the next begins, at the cut. -/
def splitGo (cuts : List Point) (cur : List FPoint) :
    List FPoint → List (List FPoint)
  | [] => [cur.reverse]
  | [p] => [(p :: cur).reverse]
  | p :: r :: rest =>
    if cuts.any (pbeq p.1) then
      (p :: cur).reverse :: splitGo cuts [p] (r :: rest)
    else splitGo cuts (p :: cur) (r :: rest)

def splitAtCuts (s : List FPoint) (cuts : List Point) : List (List FPoint) :=
  match s with
  | [] => [[]]
  | p :: rest => splitGo cuts [p] rest

/-- Rebuild a cut node: the pieces run upstream to downstream; the
downstream-most piece keeps the node's place (and parent link), each piece
is the sole child of the piece below it, and the original children hang
from the upstream-most piece. -/
def buildChain (pieces : List (List FPoint)) (cs : List TreeF) : TreeF :=
  match pieces with
  | [] => .node [] cs
  | p :: rest => rest.foldl (fun t piece => .node piece [t]) (.node p cs)

mutual

/-- Phase 3 (crossing cut) over one tree, threading the store. -/
def phase3T (eps : Q) (cut : Bool) (fuel : Nat) :
    SnapH → TreeF → Option (SnapH × TreeF)
  | h, .node s cs =>
    match cutNodeLoop eps cut fuel h s [] [] with
    | none => none
    | some (h1, s', cuts) =>
      match phase3F eps cut fuel h1 cs with
      | none => none
      | some (h2, cs') => some (h2, buildChain (splitAtCuts s' cuts) cs')

def phase3F (eps : Q) (cut : Bool) (fuel : Nat) :
    SnapH → List TreeF → Option (SnapH × List TreeF)
  | h, [] => some (h, [])
  | h, t :: ts =>
    match phase3T eps cut fuel h t with
    | none => none
    | some (h1, t') =>
      match phase3F eps cut fuel h1 ts with
      | none => none
      | some (h2, ts') => some (h2, t' :: ts')

end

/-- A fuel bound for crossing resolution. -/
def ptsCount (h : SnapH) (f : List TreeF) : Nat :=
  (h.segs.map List.length).sum + ((TreeF.geomsF f).map List.length).sum

/-- Modelled from the spec: `workflow.hydrography.snap`.  Checks the
consistency precondition, then applies endpoint snap, degenerate-geometry
normalisation, boundary snap, and crossing cuts; returns the mutated store
and forest, or nothing on a topology or tolerance error. -/
def snap (h : HUCs) (f : List Tree) (eps : Q) (cut_intersections : Bool) :
    Option (HUCs × List Tree) :=
  if f.all is_consistent then
    let p1 := phase1 eps (SnapH.ofHUCs h) (TreeF.ofTreeF f)
    let f2 := TreeF.normF p1.2
    match phase2 eps (endpointsF f2) p1.1 with
    | none => none
    | some h2 =>
      let fuel := (ptsCount h2 f2 + 2) * (ptsCount h2 f2 + 2)
      match phase3F eps cut_intersections fuel h2 f2 with
      | none => none
      | some (h3, f3) => some (h3.strip, TreeF.toTreeF f3)
  else none

theorem pbeq_refl (p : Point) : pbeq p p = true := by
  rw [pbeq_iff]; exact ⟨rfl, rfl⟩

theorem pbeq_symm {p r : Point} (h : pbeq p r = true) : pbeq r p = true := by
  rw [pbeq_iff] at h ⊢; exact ⟨h.1.symm, h.2.symm⟩

theorem pbeq_trans {p r s : Point} (h1 : pbeq p r = true) (h2 : pbeq r s = true) :
    pbeq p s = true := by
  rw [pbeq_iff] at h1 h2 ⊢; exact ⟨h1.1.trans h2.1, h1.2.trans h2.2⟩

theorem forall₂_mem_right {α β : Type} {R : α → β → Prop} :
    ∀ {l₁ : List α} {l₂ : List β}, List.Forall₂ R l₁ l₂ →
      ∀ b ∈ l₂, ∃ a ∈ l₁, R a b := by
  intro l₁ l₂ h
  induction h with
  | nil => intro b hb; cases hb
  | cons hr _ ih =>
    intro b hb
    rcases List.mem_cons.mp hb with rfl | hb'
    · exact ⟨_, List.mem_cons_self _ _, hr⟩
    · obtain ⟨a, ha, hab⟩ := ih b hb'
      exact ⟨a, List.mem_cons_of_mem _ ha, hab⟩

theorem consistentChildrenE_of_forall₂ (rs : List (List Point)) (j : Nat)
    (s : List Point) (hs : rs.getD j [] = s) :
    ∀ (js : List Nat) (ts : List Tree),
      List.Forall₂ (fun i t => t.consistentE = true ∧ t.seg = rs.getD i []) js ts →
      (∀ i ∈ js, pbeq (lastP (rs.getD i [])) (headP (rs.getD j [])) = true) →
      Tree.consistentChildrenE s ts = true := by
  intro js ts hf
  induction hf with
  | nil => intro _; rfl
  | cons hpr hrest ih =>
    intro hall
    rename_i i t js' ts'
    rw [Tree.consistentChildrenE, Bool.and_eq_true, Bool.and_eq_true]
    refine ⟨⟨?_, hpr.1⟩, ih (fun i' hi' => hall i' (List.mem_cons_of_mem _ hi'))⟩
    rw [hpr.2, ← hs]
    exact hall i (List.mem_cons_self _ _)

theorem childrenIdx_prop (rs : List (List Point)) (j : Nat) :
    ∀ i ∈ childrenIdx rs j, pbeq (lastP (rs.getD i [])) (headP (rs.getD j [])) = true := by
  intro i hi
  unfold childrenIdx at hi
  have := (List.mem_filter.mp hi).2
  simp only [Bool.and_eq_true, decide_eq_true_iff] at this
  exact this.2

theorem buildStep_forall (rs : List (List Point))
    (hval : ∀ l ∈ rs, validSeg l = true)
    (rec : List Nat → Option (List Tree))
    (hrec : ∀ js ts, rec js = some ts →
      List.Forall₂ (fun i t => t.consistentE = true ∧ t.seg = rs.getD i []) js ts) :
    ∀ js ts, buildStep rs rec js = some ts →
      List.Forall₂ (fun i t => t.consistentE = true ∧ t.seg = rs.getD i []) js ts := by
  intro js
  induction js with
  | nil =>
    intro ts h
    rw [buildStep] at h
    cases h
    exact List.Forall₂.nil
  | cons j js' ih =>
    intro ts h
    rw [buildStep] at h
    cases hj : rs[j]? with
    | none => rw [hj] at h; cases h
    | some s =>
      rw [hj] at h
      cases hc : rec (childrenIdx rs j) with
      | none => rw [hc] at h; cases h
      | some cs =>
        rw [hc] at h
        cases hr : buildStep rs rec js' with
        | none => rw [hr] at h; cases h
        | some ts' =>
          rw [hr] at h
          cases h
          have hs : rs.getD j [] = s := by
            rw [List.getD_eq_getElem?_getD, hj]; rfl
          have hmem : s ∈ rs := by
            have := List.getElem?_eq_some.mp hj
            obtain ⟨hlt, he⟩ := this
            exact he ▸ List.getElem_mem hlt
          refine List.Forall₂.cons
            ⟨?_, by rw [show Tree.seg (Tree.node s cs) = s from rfl]; exact hs.symm⟩
            (ih ts' hr)
          rw [Tree.consistentE, Bool.and_eq_true]
          exact ⟨hval s hmem,
            consistentChildrenE_of_forall₂ rs j s hs _ cs (hrec _ cs hc)
              (childrenIdx_prop rs j)⟩

theorem buildF_forall (rs : List (List Point))
    (hval : ∀ l ∈ rs, validSeg l = true) :
    ∀ (fuel : Nat) (js : List Nat) (ts : List Tree), buildF rs fuel js = some ts →
      List.Forall₂ (fun i t => t.consistentE = true ∧ t.seg = rs.getD i []) js ts := by
  intro fuel
  induction fuel with
  | zero =>
    intro js ts h
    rw [buildF_zero] at h
    cases js with
    | nil => cases h; exact List.Forall₂.nil
    | cons j js' => simp [List.isEmpty] at h
  | succ fuel ih =>
    intro js ts h
    rw [buildF_succ] at h
    exact buildStep_forall rs hval (buildF rs fuel) ih js ts h

theorem make_global_tree_consistentE (rs : List (List Point))
    (forest : List Tree) (hval : ∀ l ∈ rs, validSeg l = true)
    (h : make_global_tree rs = some forest) :
    ∀ t ∈ forest, t.consistentE = true := by
  unfold make_global_tree at h
  by_cases hamb : (List.range rs.length).all
      (fun i => decide ((parentsOf rs i).length ≤ 1)) = true
  · rw [if_pos hamb] at h
    cases hb : buildF rs (rs.length + 1) (rootIdx rs) with
    | none => rw [hb] at h; cases h
    | some forest' =>
      rw [hb] at h
      dsimp only at h
      by_cases hsz : (Tree.sizeF forest' == rs.length) = true
      · rw [if_pos hsz] at h
        cases h
        intro t ht
        have hf := buildF_forall rs hval _ _ _ hb
        obtain ⟨i, _, hp⟩ := forall₂_mem_right hf t ht
        exact hp.1
      · rw [if_neg hsz] at h; cases h
  · rw [if_neg hamb] at h; cases h

/-! ### Invariants threaded through the snapping engine -/

mutual

/-- Structural consistency of a tree: valid geometry everywhere and each
child's last point structurally equal to its parent's first point (what the
builder produces on cleaned reaches, where coinciding coordinates are
identical). -/
def Tree.consistentS : Tree → Bool
  | .node s cs => validSeg s && Tree.consistentChildrenS s cs

def Tree.consistentChildrenS : List Point → List Tree → Bool
  | _, [] => true
  | s, t :: ts =>
    decide (lastP t.seg = headP s) && t.consistentS && Tree.consistentChildrenS s ts

end

def TreeF.seg : TreeF → List FPoint
  | .node s _ => s

def TreeF.children : TreeF → List TreeF
  | .node _ cs => cs

/-- First flagged point of a flagged polyline. -/
def headF (m : List FPoint) : FPoint := m.headD fpzero

/-- Last flagged point of a flagged polyline. -/
def lastF (m : List FPoint) : FPoint := m.getLastD fpzero

mutual

/-- Weak invariant after the endpoint-snap map: nonempty geometries with
value-level head-to-tail links (duplicate consecutive points allowed until
normalisation). -/
def TreeF.okV : TreeF → Bool
  | .node s cs => !s.isEmpty && TreeF.okVChildren s cs

def TreeF.okVChildren : List FPoint → List TreeF → Bool
  | _, [] => true
  | s, t :: ts =>
    pbeq (lastF t.seg).1 (headF s).1 && t.okV && TreeF.okVChildren s ts

end

mutual

/-- Full invariant: valid geometries with value-level head-to-tail links. -/
def TreeF.goodV : TreeF → Bool
  | .node s cs => validSeg (fvals s) && TreeF.goodVChildren s cs

def TreeF.goodVChildren : List FPoint → List TreeF → Bool
  | _, [] => true
  | s, t :: ts =>
    pbeq (lastF t.seg).1 (headF s).1 && t.goodV && TreeF.goodVChildren s ts

end

theorem getLastD_ne_nil {α : Type} {l : List α} (h : l ≠ []) (d d' : α) :
    l.getLastD d = l.getLastD d' := by
  cases l with
  | nil => exact absurd rfl h
  | cons a m =>
    rw [List.getLastD_eq_getLast?, List.getLastD_eq_getLast?]
    cases hm : (a :: m).getLast? with
    | none => exact absurd (List.getLast?_eq_none_iff.mp hm) (by simp)
    | some b => rfl

theorem getLastD_append_singleton {α : Type} :
    ∀ (l : List α) (x d : α), (l ++ [x]).getLastD d = x := by
  intro l
  induction l with
  | nil => intro x d; rfl
  | cons a m ih =>
    intro x d
    rw [List.cons_append, List.getLastD_cons]
    exact ih x a

theorem headP_fvals (m : List FPoint) : headP (fvals m) = (headF m).1 := by
  cases m with
  | nil => rfl
  | cons a m => rfl

theorem lastP_fvals (m : List FPoint) : lastP (fvals m) = (lastF m).1 := by
  unfold lastP lastF
  induction m with
  | nil => rfl
  | cons a m ih =>
    cases m with
    | nil => rfl
    | cons b m' =>
      show (fvals (b :: m')).getLastD a.1 = ((b :: m').getLastD a).1
      have h1 : (fvals (b :: m')).getLastD a.1 = (fvals (b :: m')).getLastD pzero :=
        getLastD_ne_nil (by simp [fvals]) _ _
      have h2 : (b :: m').getLastD a = (b :: m').getLastD fpzero :=
        getLastD_ne_nil (by simp) _ _
      rw [h1, h2]
      exact ih

theorem fvals_ofp : ∀ l : List Point, fvals (l.map (fun p => (p, false))) = l := by
  intro l
  induction l with
  | nil => rfl
  | cons p m ih =>
    show p :: fvals (m.map (fun p => (p, false))) = p :: m
    rw [ih]

theorem headF_ofp (l : List Point) :
    headF (l.map (fun p => (p, false))) = (headP l, false) := by
  cases l with
  | nil => rfl
  | cons p m => rfl

theorem lastF_ofp (l : List Point) :
    lastF (l.map (fun p => (p, false))) = (lastP l, false) := by
  unfold lastF lastP
  induction l with
  | nil => rfl
  | cons p m ih =>
    cases m with
    | nil => rfl
    | cons r m' =>
      show ((r :: m').map (fun p => (p, false))).getLastD (p, false)
          = ((r :: m').getLastD p, false)
      have h1 := getLastD_ne_nil (l := (r :: m').map (fun p => (p, false)))
        (by simp) (p, false) fpzero
      have h2 := getLastD_ne_nil (l := r :: m') (by simp) p pzero
      rw [h1, h2]
      exact ih

theorem fEnds_ne_nil (g : FPoint → FPoint) {l : List FPoint} (h : l ≠ []) :
    fEnds g l ≠ [] := by
  cases l with
  | nil => exact absurd rfl h
  | cons p m => cases m <;> simp [fEnds]

theorem headF_fEnds (g : FPoint → FPoint) {l : List FPoint} (h : l ≠ []) :
    headF (fEnds g l) = g (headF l) := by
  cases l with
  | nil => exact absurd rfl h
  | cons p m => cases m <;> rfl

theorem lastF_fEnds (g : FPoint → FPoint) {l : List FPoint} (h : l ≠ []) :
    lastF (fEnds g l) = g (lastF l) := by
  cases l with
  | nil => exact absurd rfl h
  | cons p m =>
    cases m with
    | nil => rfl
    | cons r m' =>
      show lastF (g p :: ((r :: m').dropLast ++ [g ((r :: m').getLastD fpzero)]))
          = g ((p :: r :: m').getLastD fpzero)
      have hL : lastF (g p :: ((r :: m').dropLast ++ [g ((r :: m').getLastD fpzero)]))
          = g ((r :: m').getLastD fpzero) := by
        unfold lastF
        rw [List.getLastD_cons, getLastD_append_singleton]
      have hR : (p :: r :: m').getLastD fpzero = (r :: m').getLastD fpzero := by
        rw [List.getLastD_cons]
        exact getLastD_ne_nil (l := r :: m') (by simp) p fpzero
      rw [hL, hR]

theorem validSeg_ne_nil {l : List Point} (h : validSeg l = true) : l ≠ [] := by
  unfold validSeg at h
  rw [Bool.and_eq_true, decide_eq_true_iff] at h
  intro hnil
  rw [hnil] at h
  simp at h

mutual

theorem phase1_okV : ∀ (g : FPoint → FPoint) (t : Tree), Tree.consistentS t = true →
    TreeF.okV (TreeF.mapGeom (fEnds g) (TreeF.ofTree t)) = true
  | g, .node s cs, h => by
    rw [Tree.consistentS, Bool.and_eq_true] at h
    have hs := validSeg_ne_nil h.1
    show TreeF.okV (.node (fEnds g (s.map (fun p => (p, false))))
        (TreeF.mapGeomF (fEnds g) (TreeF.ofTreeF cs))) = true
    rw [TreeF.okV, Bool.and_eq_true]
    refine ⟨?_, phase1_okVChildren g s cs h.2 hs⟩
    have hne := fEnds_ne_nil g (l := s.map (fun p => (p, false))) (by simpa using hs)
    simpa [List.isEmpty_iff] using hne

theorem phase1_okVChildren : ∀ (g : FPoint → FPoint) (s : List Point) (cs : List Tree),
    Tree.consistentChildrenS s cs = true → s ≠ [] →
    TreeF.okVChildren (fEnds g (s.map (fun p => (p, false))))
      (TreeF.mapGeomF (fEnds g) (TreeF.ofTreeF cs)) = true
  | _, _, [], _, _ => rfl
  | g, s, .node ct cc :: ts, h, hs => by
    rw [Tree.consistentChildrenS, Bool.and_eq_true, Bool.and_eq_true,
      decide_eq_true_iff] at h
    obtain ⟨⟨hlink, hcons⟩, hrest⟩ := h
    show TreeF.okVChildren (fEnds g (s.map (fun p => (p, false))))
        (TreeF.mapGeom (fEnds g) (TreeF.ofTree (.node ct cc)) :: _) = true
    rw [TreeF.okVChildren, Bool.and_eq_true, Bool.and_eq_true]
    refine ⟨⟨?_, phase1_okV g (.node ct cc) hcons⟩, phase1_okVChildren g s ts hrest hs⟩
    have hct : ct ≠ [] := by
      rw [Tree.consistentS, Bool.and_eq_true] at hcons
      exact validSeg_ne_nil hcons.1
    show pbeq (lastF (TreeF.mapGeom (fEnds g) (TreeF.ofTree (.node ct cc))).seg).1
        (headF (fEnds g (s.map (fun p => (p, false))))).1 = true
    have h1 : (TreeF.mapGeom (fEnds g) (TreeF.ofTree (.node ct cc))).seg
        = fEnds g (ct.map (fun p => (p, false))) := rfl
    rw [h1, lastF_fEnds g (by simpa using hct), lastF_ofp,
      headF_fEnds g (by simpa using hs), headF_ofp]
    have h2 : lastP ct = headP s := by
      rw [show Tree.seg (Tree.node ct cc) = ct from rfl] at hlink
      exact hlink
    rw [h2]
    exact pbeq_refl _

end

theorem lastF_cons_ne {m : List FPoint} (h : m ≠ []) (p : FPoint) :
    lastF (p :: m) = lastF m := by
  unfold lastF
  rw [List.getLastD_cons]
  exact getLastD_ne_nil h p fpzero

theorem ddF_ne_nil {l : List FPoint} (h : l ≠ []) : dedupeF l ≠ [] := by
  cases l with
  | nil => exact absurd rfl h
  | cons p m => simp [dedupeF]

theorem ddF_headF {l : List FPoint} (h : l ≠ []) : headF (dedupeF l) = headF l := by
  cases l with
  | nil => exact absurd rfl h
  | cons p m => rfl

theorem ddGo_lastF : ∀ (l : List FPoint) (prev : FPoint),
    pbeq (lastF (prev :: dedupeGo prev l)).1 (lastF (prev :: l)).1 = true := by
  intro l
  induction l with
  | nil => intro prev; exact pbeq_refl _
  | cons r rest ih =>
    intro prev
    rw [dedupeGo]
    by_cases hpr : pbeq prev.1 r.1 = true
    · rw [if_pos hpr]
      cases rest with
      | nil =>
        show pbeq (lastF [prev]).1 (lastF (prev :: [r])).1 = true
        rw [show lastF [prev] = prev from rfl, lastF_cons_ne (by simp),
          show lastF [r] = r from rfl]
        exact hpr
      | cons r2 rest2 =>
        have h1 := ih prev
        rw [lastF_cons_ne (m := r :: r2 :: rest2) (by simp),
          lastF_cons_ne (m := r2 :: rest2) (by simp)]
        rw [lastF_cons_ne (m := r2 :: rest2) (by simp)] at h1
        cases hdg : dedupeGo prev (r2 :: rest2) with
        | nil =>
          rw [hdg] at h1
          exact h1
        | cons w ws =>
          rw [hdg] at h1
          rw [lastF_cons_ne (m := w :: ws) (by simp)] at h1
          exact h1
    · rw [if_neg hpr]
      rw [lastF_cons_ne (m := r :: dedupeGo r rest) (by simp),
        lastF_cons_ne (m := r :: rest) (by simp)]
      exact ih r

theorem ddF_lastF {l : List FPoint} (h : l ≠ []) :
    pbeq (lastF (dedupeF l)).1 (lastF l).1 = true := by
  cases l with
  | nil => exact absurd rfl h
  | cons p m => exact ddGo_lastF m p

theorem ddGo_noDup : ∀ (l : List FPoint) (prev : FPoint),
    noDupPts (fvals (prev :: dedupeGo prev l)) = true := by
  intro l
  induction l with
  | nil => intro prev; rfl
  | cons r rest ih =>
    intro prev
    rw [dedupeGo]
    by_cases hpr : pbeq prev.1 r.1 = true
    · rw [if_pos hpr]
      exact ih prev
    · rw [if_neg hpr]
      show noDupPts (prev.1 :: r.1 :: fvals (dedupeGo r rest)) = true
      show (!pbeq prev.1 r.1 && noDupPts (r.1 :: fvals (dedupeGo r rest))) = true
      rw [Bool.and_eq_true]
      exact ⟨by simp [hpr], ih r⟩

theorem ddF_noDup (l : List FPoint) : noDupPts (fvals (dedupeF l)) = true := by
  cases l with
  | nil => rfl
  | cons p m => exact ddGo_noDup m p

theorem ddF_collapse {l : List FPoint} (h : l ≠ [])
    (hlen : ¬ 2 ≤ (dedupeF l).length) :
    pbeq (lastF l).1 (headF l).1 = true := by
  cases l with
  | nil => exact absurd rfl h
  | cons p m =>
    have hdd : dedupeGo p m = [] := by
      cases hdg : dedupeGo p m with
      | nil => rfl
      | cons w ws =>
        exact absurd (by simp [dedupeF, hdg]) hlen
    have hl := ddGo_lastF m p
    rw [hdd] at hl
    rw [show lastF [p] = p from rfl] at hl
    exact pbeq_symm (by simpa [headF] using hl)

theorem goodVChildren_of_forall (s : List FPoint) :
    ∀ cs : List TreeF,
      (∀ u ∈ cs, TreeF.goodV u = true ∧ pbeq (lastF u.seg).1 (headF s).1 = true) →
      TreeF.goodVChildren s cs = true := by
  intro cs
  induction cs with
  | nil => intro _; rfl
  | cons t ts ih =>
    intro h
    rw [TreeF.goodVChildren, Bool.and_eq_true, Bool.and_eq_true]
    have ht := h t (List.mem_cons_self _ _)
    exact ⟨⟨ht.2, ht.1⟩, ih (fun u hu => h u (List.mem_cons_of_mem _ hu))⟩

mutual

theorem norm_goodV : ∀ t : TreeF, TreeF.okV t = true →
    ∀ u ∈ TreeF.norm t, TreeF.goodV u = true ∧
      pbeq (lastF u.seg).1 (lastF t.seg).1 = true
  | .node s cs, h => by
    intro u hu
    rw [TreeF.okV, Bool.and_eq_true] at h
    have hs : s ≠ [] := by simpa [List.isEmpty_iff] using h.1
    rw [TreeF.norm] at hu
    by_cases hlen : 2 ≤ (dedupeF s).length
    · rw [if_pos hlen] at hu
      rw [List.mem_singleton] at hu
      subst hu
      refine ⟨?_, ?_⟩
      · rw [TreeF.goodV, Bool.and_eq_true]
        constructor
        · unfold validSeg
          rw [Bool.and_eq_true, decide_eq_true_iff]
          exact ⟨by simpa [fvals] using hlen, ddF_noDup s⟩
        · refine goodVChildren_of_forall _ _ ?_
          intro u' hu'
          have := norm_goodVF s cs h.2 u' hu'
          rw [show headF (dedupeF s) = headF s from ddF_headF hs]
          exact this
      · show pbeq (lastF (dedupeF s)).1 (lastF s).1 = true
        exact ddF_lastF hs
    · rw [if_neg hlen] at hu
      have hcol := ddF_collapse hs hlen
      have := norm_goodVF s cs h.2 u hu
      exact ⟨this.1, pbeq_trans this.2 (pbeq_symm hcol)⟩

theorem norm_goodVF : ∀ (s : List FPoint) (cs : List TreeF),
    TreeF.okVChildren s cs = true →
    ∀ u ∈ TreeF.normF cs, TreeF.goodV u = true ∧
      pbeq (lastF u.seg).1 (headF s).1 = true
  | _, [], _ => by intro u hu; rw [TreeF.normF] at hu; cases hu
  | s, t :: ts, h => by
    intro u hu
    rw [TreeF.okVChildren, Bool.and_eq_true, Bool.and_eq_true] at h
    obtain ⟨⟨hlink, hok⟩, hrest⟩ := h
    rw [TreeF.normF] at hu
    rcases List.mem_append.mp hu with hl | hr
    · have := norm_goodV t hok u hl
      exact ⟨this.1, pbeq_trans this.2 hlink⟩
    · exact norm_goodVF s ts hrest u hr

end

theorem normF_goodV_top : ∀ cs : List TreeF, (∀ t ∈ cs, TreeF.okV t = true) →
    ∀ u ∈ TreeF.normF cs, TreeF.goodV u = true := by
  intro cs
  induction cs with
  | nil => intro _ u hu; rw [TreeF.normF] at hu; cases hu
  | cons t ts ih =>
    intro h u hu
    rw [TreeF.normF] at hu
    rcases List.mem_append.mp hu with hl | hr
    · exact (norm_goodV t (h t (List.mem_cons_self _ _)) u hl).1
    · exact ih (fun t' ht' => h t' (List.mem_cons_of_mem _ ht')) u hr

theorem pbeq_false_symm {p r : Point} (h : pbeq p r = false) : pbeq r p = false := by
  cases hb : pbeq r p with
  | false => rfl
  | true => rw [pbeq_symm hb] at h; cases h

theorem noDup_tail {p : Point} {l : List Point} (h : noDupPts (p :: l) = true) :
    noDupPts l = true := by
  cases l with
  | nil => rfl
  | cons r rest =>
    have h2 : (!pbeq p r && noDupPts (r :: rest)) = true := h
    rw [Bool.and_eq_true] at h2
    exact h2.2

theorem noDup_head {p r : Point} {l : List Point}
    (h : noDupPts (p :: r :: l) = true) : pbeq p r = false := by
  have h2 : (!pbeq p r && noDupPts (r :: l)) = true := h
  rw [Bool.and_eq_true] at h2
  simpa using h2.1

theorem noDup_cons_of {p : Point} {l : List Point} (htail : noDupPts l = true)
    (hhead : ∀ r, l.headD p = r → l ≠ [] → pbeq p r = false) :
    noDupPts (p :: l) = true := by
  cases l with
  | nil => rfl
  | cons r rest =>
    show (!pbeq p r && noDupPts (r :: rest)) = true
    rw [Bool.and_eq_true]
    exact ⟨by simp [hhead r rfl (by simp)], htail⟩

theorem noDup_set : ∀ (l : List Point) (k : Nat) (x : Point),
    noDupPts l = true → (∀ p ∈ l, pbeq p x = false) →
    noDupPts (l.set k x) = true := by
  intro l
  induction l with
  | nil => intro k x _ _; rfl
  | cons p rest ih =>
    intro k x h hall
    cases k with
    | zero =>
      show noDupPts (x :: rest) = true
      refine noDup_cons_of (noDup_tail h) ?_
      intro r hr hne
      cases rest with
      | nil => exact absurd rfl hne
      | cons r0 rest' =>
        cases hr
        exact pbeq_false_symm (hall r0 (by simp))
    | succ k' =>
      show noDupPts (p :: rest.set k' x) = true
      refine noDup_cons_of
        (ih k' x (noDup_tail h) (fun r hr => hall r (List.mem_cons_of_mem _ hr))) ?_
      intro r hr hne
      cases rest with
      | nil => simp at hne
      | cons r0 rest' =>
        cases k' with
        | zero => cases hr; exact hall p (List.mem_cons_self _ _)
        | succ k'' => cases hr; exact noDup_head h

theorem noDup_insert : ∀ (l : List Point) (j : Nat) (x : Point),
    noDupPts l = true → (∀ p ∈ l, pbeq p x = false) →
    noDupPts (l.take j ++ x :: l.drop j) = true := by
  intro l
  induction l with
  | nil => intro j x _ _; cases j <;> rfl
  | cons p rest ih =>
    intro j x h hall
    cases j with
    | zero =>
      show noDupPts (x :: p :: rest) = true
      refine noDup_cons_of h ?_
      intro r hr _
      cases hr
      exact pbeq_false_symm (hall p (by simp))
    | succ j' =>
      show noDupPts (p :: (rest.take j' ++ x :: rest.drop j')) = true
      refine noDup_cons_of
        (ih j' x (noDup_tail h) (fun r hr => hall r (List.mem_cons_of_mem _ hr))) ?_
      intro r hr _
      cases rest with
      | nil =>
        simp only [List.take_nil, List.drop_nil, List.nil_append, List.headD_cons] at hr
        cases hr
        exact hall p (List.mem_cons_self _ _)
      | cons r0 rest' =>
        cases j' with
        | zero => cases hr; exact hall p (List.mem_cons_self _ _)
        | succ j'' => cases hr; exact noDup_head h

theorem headF_set {m : List FPoint} {k : Nat} (hk : 1 ≤ k) (y : FPoint) :
    headF (m.set k y) = headF m := by
  cases m with
  | nil => rfl
  | cons p rest =>
    cases k with
    | zero => omega
    | succ k' => rfl

theorem lastF_set : ∀ (m : List FPoint) (k : Nat) (y : FPoint), k + 1 < m.length →
    lastF (m.set k y) = lastF m := by
  intro m
  induction m with
  | nil => intro k y h; simp at h
  | cons p rest ih =>
    intro k y h
    cases k with
    | zero =>
      have hne : rest ≠ [] := by
        intro hr; rw [hr] at h; simp at h
      show lastF (y :: rest) = lastF (p :: rest)
      rw [lastF_cons_ne hne, lastF_cons_ne hne]
    | succ k' =>
      have hlt : k' + 1 < rest.length := by simpa using h
      have hne : rest ≠ [] := by
        intro hr; rw [hr] at hlt; simp at hlt
      have hne2 : rest.set k' y ≠ [] := by
        intro hr
        have := congrArg List.length hr
        rw [List.length_set] at this
        exact hne (List.length_eq_zero.mp this)
      show lastF (p :: rest.set k' y) = lastF (p :: rest)
      rw [lastF_cons_ne hne2, lastF_cons_ne hne, ih k' y hlt]

theorem getLastD_append_ne {α : Type} :
    ∀ (l r : List α) (d : α), r ≠ [] → (l ++ r).getLastD d = r.getLastD d := by
  intro l
  induction l with
  | nil => intro r d _; rfl
  | cons a l' ih =>
    intro r d hr
    rw [List.cons_append, List.getLastD_cons, ih r a hr]
    have hlr : l' ++ r ≠ [] := by simp [hr]
    cases r with
    | nil => exact absurd rfl hr
    | cons b r' =>
      exact getLastD_ne_nil (by simp) a d

theorem lastF_drop : ∀ (m : List FPoint) (j : Nat), j < m.length →
    lastF (m.drop j) = lastF m := by
  intro m
  induction m with
  | nil => intro j h; simp at h
  | cons p rest ih =>
    intro j h
    cases j with
    | zero => rfl
    | succ j' =>
      have hlt : j' < rest.length := by simpa using h
      have hne : rest ≠ [] := by
        intro hr; rw [hr] at hlt; simp at hlt
      show lastF (rest.drop j') = lastF (p :: rest)
      rw [lastF_cons_ne hne, ih j' hlt]

theorem lastF_insert {m : List FPoint} {j : Nat} (hj : j < m.length) (y : FPoint) :
    lastF (m.take j ++ y :: m.drop j) = lastF m := by
  have hdr : m.drop j ≠ [] := by
    intro hd
    have := congrArg List.length hd
    rw [List.length_drop] at this
    simp at this
    omega
  unfold lastF
  rw [getLastD_append_ne _ _ _ (by simp), List.getLastD_cons]
  have h1 : (m.drop j).getLastD y = (m.drop j).getLastD fpzero :=
    getLastD_ne_nil hdr y fpzero
  rw [h1]
  exact lastF_drop m j hj

theorem headF_insert {m : List FPoint} {j : Nat} (hj : 1 ≤ j) (hj2 : j ≤ m.length)
    (y : FPoint) : headF (m.take j ++ y :: m.drop j) = headF m := by
  cases m with
  | nil => simp at hj2; omega
  | cons p rest =>
    cases j with
    | zero => omega
    | succ j' => rfl

theorem fvals_set : ∀ (m : List FPoint) (k : Nat) (x : Point) (b : Bool),
    fvals (m.set k (x, b)) = (fvals m).set k x := by
  intro m
  induction m with
  | nil => intro k x b; rfl
  | cons p rest ih =>
    intro k x b
    cases k with
    | zero => rfl
    | succ k' =>
      show p.1 :: fvals (rest.set k' (x, b)) = p.1 :: (fvals rest).set k' x
      rw [ih]

theorem fvals_insert (m : List FPoint) (j : Nat) (y : FPoint) :
    fvals (m.take j ++ y :: m.drop j) = (fvals m).take j ++ y.1 :: (fvals m).drop j := by
  unfold fvals
  rw [List.map_append, List.map_take, List.map_cons, List.map_drop]

theorem bvGo_spec (eps : Q) (x : Point) (io : Bool) (n : Nat) :
    ∀ (l : List FPoint) (k0 : Nat) (d : Q) (j : Nat),
      bvGo eps x io n k0 l = some (d, j) →
      k0 ≤ j ∧ j - k0 < l.length ∧
        (io = true → j ≠ 0 ∧ j ≠ n - 1) ∧
        d = dist2 (l.getD (j - k0) fpzero).1 x ∧ d.ble (eps.mul eps) = true := by
  intro l
  induction l with
  | nil => intro k0 d j h; rw [bvGo] at h; cases h
  | cons fp rest ih =>
    intro k0 d j h
    rw [bvGo] at h
    by_cases hcond : ((!io || (decide (k0 ≠ 0) && decide (k0 ≠ n - 1)))
        && (dist2 fp.1 x).ble (eps.mul eps)) = true
    · rw [if_pos hcond] at h
      rw [Bool.and_eq_true] at hcond
      have helig : io = true → k0 ≠ 0 ∧ k0 ≠ n - 1 := by
        intro hio
        have h1 := hcond.1
        rw [hio] at h1
        simp only [Bool.not_true, Bool.false_or, Bool.and_eq_true,
          decide_eq_true_iff] at h1
        exact h1
      cases hrec : bvGo eps x io n (k0 + 1) rest with
      | none =>
        rw [hrec] at h
        cases h
        exact ⟨le_refl _, by simp, helig, by simp, hcond.2⟩
      | some dj =>
        rw [hrec] at h
        obtain ⟨d', j'⟩ := dj
        obtain ⟨hk1, hlen1, helig1, hdist1, hble1⟩ := ih (k0 + 1) d' j' hrec
        simp only [bestV] at h
        by_cases hblt : Q.blt d' (dist2 fp.1 x) = true
        · rw [if_pos hblt] at h
          cases h
          refine ⟨by omega, by simp; omega, helig1, ?_, hble1⟩
          have hj : j - k0 = (j - (k0 + 1)) + 1 := by omega
          rw [hj, List.getD_cons_succ]
          exact hdist1
        · rw [if_neg hblt] at h
          cases h
          exact ⟨le_refl _, by simp, helig, by simp, hcond.2⟩
    · rw [if_neg hcond] at h
      simp only [bestV] at h
      obtain ⟨hk1, hlen1, helig1, hdist1, hble1⟩ := ih (k0 + 1) d j h
      refine ⟨by omega, by simp; omega, helig1, ?_, hble1⟩
      have hj : j - k0 = (j - (k0 + 1)) + 1 := by omega
      rw [hj, List.getD_cons_succ]
      exact hdist1

theorem bestEdgeIdx_bound : ∀ (l : List Point) (q : Point) (d : Q) (k : Nat),
    bestEdgeIdx q l = some (d, k) → k + 2 ≤ l.length := by
  intro l
  induction l with
  | nil => intro q d k h; rw [bestEdgeIdx] at h; cases h
  | cons a rest ih =>
    intro q d k h
    cases rest with
    | nil => rw [bestEdgeIdx] at h; cases h
    | cons b rest' =>
      rw [bestEdgeIdx] at h
      cases hrec : bestEdgeIdx q (b :: rest') with
      | none =>
        rw [hrec] at h
        cases h
        simp
      | some dk =>
        obtain ⟨d0, k0⟩ := dk
        rw [hrec] at h
        dsimp only at h
        by_cases hble : (dist2 q (nearestOnEdge q a b)).ble d0 = true
        · rw [if_pos hble] at h
          cases h
          simp
        · rw [if_neg hble] at h
          have hik := ih q d0 k0 hrec
          cases h
          simp only [List.length_cons] at hik ⊢
          omega

theorem length_insert {α : Type} (m : List α) (j : Nat) (y : α) (hj : j ≤ m.length) :
    (m.take j ++ y :: m.drop j).length = m.length + 1 := by
  simp only [List.length_append, List.length_take, List.length_cons, List.length_drop]
  omega

theorem moveOrInsert_riv {eps : Q} {x : Point} {pts pts' : List FPoint}
    (h : moveOrInsert eps x true pts = some pts')
    (hval : validSeg (fvals pts) = true) :
    validSeg (fvals pts') = true ∧ headF pts' = headF pts ∧ lastF pts' = lastF pts := by
  have hself : validSeg (fvals pts) = true ∧ headF pts = headF pts ∧
      lastF pts = lastF pts := ⟨hval, rfl, rfl⟩
  unfold moveOrInsert at h
  by_cases hany : pts.any (fun fp => pbeq fp.1 x) = true
  · rw [if_pos hany] at h
    cases h
    exact hself
  · rw [if_neg hany] at h
    have hall : ∀ fp ∈ pts, pbeq fp.1 x = false := by
      intro fp hfp
      have hfalse : pts.any (fun fp => pbeq fp.1 x) = false := by
        cases hh : pts.any (fun fp => pbeq fp.1 x) with
        | false => rfl
        | true => exact absurd hh hany
      rw [List.any_eq_false] at hfalse
      simpa using hfalse fp hfp
    have hallv : ∀ p ∈ fvals pts, pbeq p x = false := by
      intro p hp
      obtain ⟨fp, hfp, rfl⟩ := List.mem_map.mp hp
      exact hall fp hfp
    have hvu := hval
    unfold validSeg at hvu
    rw [Bool.and_eq_true, decide_eq_true_iff] at hvu
    have hlenf : (fvals pts).length = pts.length := List.length_map _ _
    cases hbv : bestVertexIdx eps x true pts with
    | some dk =>
      obtain ⟨d0, k0⟩ := dk
      rw [hbv] at h
      dsimp only at h
      by_cases hflag : (pts.getD k0 fpzero).2 = true
      · rw [if_pos hflag] at h; cases h
      · rw [if_neg hflag] at h
        cases h
        obtain ⟨-, hklen, hio, -, -⟩ :=
          bvGo_spec eps x true pts.length pts 0 d0 k0 hbv
        obtain ⟨hk0, hkn⟩ := hio rfl
        simp only [Nat.sub_zero] at hklen
        refine ⟨?_, ?_, ?_⟩
        · unfold validSeg
          rw [Bool.and_eq_true, decide_eq_true_iff, fvals_set]
          constructor
          · rw [List.length_set]
            exact hlenf ▸ hvu.1
          · exact noDup_set (fvals pts) k0 x hvu.2 hallv
        · exact headF_set (by omega) _
        · exact lastF_set pts k0 (x, true) (by omega)
    | none =>
      rw [hbv] at h
      dsimp only at h
      cases hbe : bestEdgeIdx x (fvals pts) with
      | none => rw [hbe] at h; cases h; exact hself
      | some dk =>
        obtain ⟨d0, k0⟩ := dk
        rw [hbe] at h
        dsimp only at h
        cases h
        have hkb := bestEdgeIdx_bound (fvals pts) x d0 k0 hbe
        rw [hlenf] at hkb
        refine ⟨?_, ?_, ?_⟩
        · unfold validSeg
          rw [Bool.and_eq_true, decide_eq_true_iff, fvals_insert]
          constructor
          · rw [length_insert _ _ _ (by rw [hlenf]; omega)]
            omega
          · exact noDup_insert (fvals pts) (k0 + 1) x hvu.2 hallv
        · exact headF_insert (by omega) (by omega) _
        · exact lastF_insert (by omega) _

theorem cutNodeLoop_pres (eps : Q) (cut : Bool) :
    ∀ (fuel : Nat) (h : SnapH) (s : List FPoint) (cuts resolved : List Point)
      (h' : SnapH) (s' : List FPoint) (cuts' : List Point),
      cutNodeLoop eps cut fuel h s cuts resolved = some (h', s', cuts') →
      validSeg (fvals s) = true →
      validSeg (fvals s') = true ∧ headF s' = headF s ∧ lastF s' = lastF s := by
  intro fuel
  induction fuel with
  | zero => intro h s cuts resolved h' s' cuts' hcl _; rw [cutNodeLoop] at hcl; cases hcl
  | succ fuel ih =>
    intro h s cuts resolved h' s' cuts' hcl hval
    rw [cutNodeLoop] at hcl
    cases hfc : findCrossing h
        (headP (fvals s) :: lastP (fvals s) :: (cuts ++ resolved)) (fvals s) with
    | none =>
      rw [hfc] at hcl
      cases hcl
      exact ⟨hval, rfl, rfl⟩
    | some sx =>
      obtain ⟨sid, x⟩ := sx
      rw [hfc] at hcl
      dsimp only at hcl
      cases hmr : moveOrInsert eps x true s with
      | none => rw [hmr] at hcl; cases hcl
      | some s1 =>
        cases hmb : moveOrInsert eps x false (h.segs.getD sid []) with
        | none => rw [hmr, hmb] at hcl; cases hcl
        | some seg1 =>
          rw [hmr, hmb] at hcl
          dsimp only at hcl
          obtain ⟨hv1, hh1, hl1⟩ := moveOrInsert_riv hmr hval
          cases cut with
          | true =>
            rw [if_pos rfl] at hcl
            obtain ⟨hv2, hh2, hl2⟩ := ih _ s1 _ _ _ _ _ hcl hv1
            exact ⟨hv2, hh2.trans hh1, hl2.trans hl1⟩
          | false =>
            rw [if_neg (by simp)] at hcl
            obtain ⟨hv2, hh2, hl2⟩ := ih _ s1 _ _ _ _ _ hcl hv1
            exact ⟨hv2, hh2.trans hh1, hl2.trans hl1⟩

theorem fvals_append (a b : List FPoint) : fvals (a ++ b) = fvals a ++ fvals b :=
  List.map_append _ _ _

theorem noDup_append_left : ∀ (l m : List Point),
    noDupPts (l ++ m) = true → noDupPts l = true := by
  intro l
  induction l with
  | nil => intro m _; rfl
  | cons p rest ih =>
    intro m h
    cases rest with
    | nil => rfl
    | cons r rest' =>
      have hh : noDupPts (p :: r :: (rest' ++ m)) = true := h
      show (!pbeq p r && noDupPts (r :: rest')) = true
      rw [Bool.and_eq_true]
      exact ⟨by simp [noDup_head hh], ih m (noDup_tail hh)⟩

theorem noDup_append_right : ∀ (l m : List Point),
    noDupPts (l ++ m) = true → noDupPts m = true := by
  intro l
  induction l with
  | nil => intro m h; exact h
  | cons p rest ih =>
    intro m h
    exact ih m (noDup_tail h)

theorem headD_reverse {α : Type} (l : List α) (d : α) :
    l.reverse.headD d = l.getLastD d := by
  rw [List.headD_eq_head?_getD, List.head?_reverse, List.getLastD_eq_getLast?]

/-- The chain predicate for split pieces: each piece starts at the given
flagged point, is a valid polyline, and hands its last point to the next. -/
def ChainedFrom (z : FPoint) : List (List FPoint) → Prop
  | [] => True
  | piece :: rest =>
    piece.headD fpzero = z ∧ validSeg (fvals piece) = true ∧
      ChainedFrom (piece.getLastD fpzero) rest

/-- The last point handed on by a chain of pieces. -/
def chainEnd (z : FPoint) : List (List FPoint) → FPoint
  | [] => z
  | piece :: rest => chainEnd (piece.getLastD fpzero) rest

theorem splitGo_ne_nil (cuts : List Point) :
    ∀ (l cur : List FPoint), splitGo cuts cur l ≠ [] := by
  intro l
  induction l with
  | nil => intro cur; simp [splitGo]
  | cons p rest ih =>
    intro cur
    cases rest with
    | nil => simp [splitGo]
    | cons r rest' =>
      rw [splitGo]
      by_cases hc : cuts.any (pbeq p.1) = true
      · rw [if_pos hc]; simp
      · rw [if_neg hc]; exact ih (p :: cur)

theorem splitGo_spec (cuts : List Point) :
    ∀ (l cur : List FPoint), l ≠ [] → cur ≠ [] →
      noDupPts (fvals (cur.reverse ++ l)) = true →
      ChainedFrom (cur.getLastD fpzero) (splitGo cuts cur l) ∧
        chainEnd (cur.getLastD fpzero) (splitGo cuts cur l) = l.getLastD fpzero := by
  intro l
  induction l with
  | nil => intro cur h; exact absurd rfl h
  | cons p rest ih =>
    intro cur _ hcur hnd
    have hcrev : cur.reverse ≠ [] := by simpa using hcur
    cases rest with
    | nil =>
      rw [splitGo]
      have hrev : (p :: cur).reverse = cur.reverse ++ [p] := by simp
      have hhead : (p :: cur).reverse.headD fpzero = cur.getLastD fpzero := by
        rw [headD_reverse, List.getLastD_cons]
        exact getLastD_ne_nil hcur p fpzero
      have hvp : validSeg (fvals ((p :: cur).reverse)) = true := by
        unfold validSeg
        rw [Bool.and_eq_true, decide_eq_true_iff]
        constructor
        · have : (fvals ((p :: cur).reverse)).length = cur.length + 1 := by
            simp [fvals]
          rw [this]
          have : 1 ≤ cur.length := by
            cases cur with
            | nil => exact absurd rfl hcur
            | cons a l' => simp
          omega
        · rw [hrev]
          exact hnd
      refine ⟨⟨hhead, hvp, trivial⟩, ?_⟩
      show chainEnd ((p :: cur).reverse.getLastD fpzero) [] = [p].getLastD fpzero
      rw [chainEnd, hrev, getLastD_append_singleton]
      rfl
    | cons r rest' =>
      rw [splitGo]
      by_cases hc : cuts.any (pbeq p.1) = true
      · rw [if_pos hc]
        have hrev : (p :: cur).reverse = cur.reverse ++ [p] := by simp
        have hshape : cur.reverse ++ p :: r :: rest'
            = (cur.reverse ++ [p]) ++ (r :: rest') := by simp
        have hnd1 : noDupPts (fvals (cur.reverse ++ [p])) = true := by
          rw [hshape, fvals_append] at hnd
          exact noDup_append_left _ _ hnd
        have hnd2 : noDupPts (fvals ([p].reverse ++ (r :: rest'))) = true := by
          have h2 : cur.reverse ++ p :: r :: rest' = cur.reverse ++ (p :: r :: rest') := rfl
          rw [fvals_append] at hnd
          have := noDup_append_right _ _ hnd
          simpa [fvals] using this
        obtain ⟨hch, hce⟩ := ih [p] (by simp) (by simp) hnd2
        have hplast : ([p] : List FPoint).getLastD fpzero = p := rfl
        rw [hplast] at hch hce
        have hhead : (p :: cur).reverse.headD fpzero = cur.getLastD fpzero := by
          rw [headD_reverse, List.getLastD_cons]
          exact getLastD_ne_nil hcur p fpzero
        have hvp : validSeg (fvals ((p :: cur).reverse)) = true := by
          unfold validSeg
          rw [Bool.and_eq_true, decide_eq_true_iff]
          constructor
          · have : (fvals ((p :: cur).reverse)).length = cur.length + 1 := by
              simp [fvals]
            rw [this]
            have : 1 ≤ cur.length := by
              cases cur with
              | nil => exact absurd rfl hcur
              | cons a l' => simp
            omega
          · rw [hrev]
            exact hnd1
        have hplastrev : (p :: cur).reverse.getLastD fpzero = p := by
          rw [hrev, getLastD_append_singleton]
        constructor
        · refine ⟨hhead, hvp, ?_⟩
          rw [hplastrev]
          exact hch
        · show chainEnd ((p :: cur).reverse.getLastD fpzero)
              (splitGo cuts [p] (r :: rest')) = (p :: r :: rest').getLastD fpzero
          rw [hplastrev, hce, List.getLastD_cons]
          rw [show (p :: r :: rest').getLastD fpzero = rest'.getLastD r from by
            rw [List.getLastD_cons, List.getLastD_cons]]
      · rw [if_neg hc]
        have hshape : (p :: cur).reverse ++ (r :: rest')
            = cur.reverse ++ p :: r :: rest' := by simp
        obtain ⟨hch, hce⟩ := ih (p :: cur) (by simp) (by simp)
          (by rw [hshape]; exact hnd)
        have hlastpc : (p :: cur).getLastD fpzero = cur.getLastD fpzero := by
          rw [List.getLastD_cons]
          exact getLastD_ne_nil hcur p fpzero
        rw [hlastpc] at hch hce
        refine ⟨hch, ?_⟩
        rw [hce, List.getLastD_cons]
        rw [show (p :: r :: rest').getLastD fpzero = rest'.getLastD r from by
          rw [List.getLastD_cons, List.getLastD_cons]]

theorem chainFold : ∀ (rest : List (List FPoint)) (t : TreeF) (z : FPoint),
    TreeF.goodV t = true → lastF t.seg = z → ChainedFrom z rest →
    TreeF.goodV (rest.foldl (fun t piece => TreeF.node piece [t]) t) = true ∧
      lastF (rest.foldl (fun t piece => TreeF.node piece [t]) t).seg = chainEnd z rest := by
  intro rest
  induction rest with
  | nil =>
    intro t z hg hl _
    exact ⟨hg, by rw [chainEnd]; exact hl⟩
  | cons piece rest' ih =>
    intro t z hg hl hch
    obtain ⟨hhead, hvalidp, hch'⟩ := hch
    rw [List.foldl_cons, chainEnd]
    refine ih (TreeF.node piece [t]) (piece.getLastD fpzero) ?_ rfl hch'
    rw [TreeF.goodV, Bool.and_eq_true]
    refine ⟨hvalidp, ?_⟩
    rw [TreeF.goodVChildren, Bool.and_eq_true, Bool.and_eq_true]
    refine ⟨⟨?_, hg⟩, rfl⟩
    rw [hl, ← hhead]
    exact pbeq_refl _

theorem goodVChildren_mem : ∀ (s : List FPoint) (cs : List TreeF),
    TreeF.goodVChildren s cs = true →
    ∀ t ∈ cs, TreeF.goodV t = true ∧ pbeq (lastF t.seg).1 (headF s).1 = true := by
  intro s cs
  induction cs with
  | nil => intro _ t ht; cases ht
  | cons t0 ts ih =>
    intro h t ht
    rw [TreeF.goodVChildren, Bool.and_eq_true, Bool.and_eq_true] at h
    rcases List.mem_cons.mp ht with rfl | ht'
    · exact ⟨h.1.2, h.1.1⟩
    · exact ih h.2 t ht'

theorem goodVChildren_transfer (s q : List FPoint) (hq : (headF q).1 = (headF s).1)
    {cs cs' : List TreeF}
    (hf : List.Forall₂ (fun t t' => TreeF.goodV t' = true ∧
      (lastF (TreeF.seg t')).1 = (lastF (TreeF.seg t)).1) cs cs') :
    TreeF.goodVChildren s cs = true → TreeF.goodVChildren q cs' = true := by
  induction hf with
  | nil => intro _; rfl
  | cons hr hrest ih =>
    rename_i t t' ts ts'
    intro h
    rw [TreeF.goodVChildren, Bool.and_eq_true, Bool.and_eq_true] at h
    rw [TreeF.goodVChildren, Bool.and_eq_true, Bool.and_eq_true]
    refine ⟨⟨?_, hr.1⟩, ih h.2⟩
    rw [hr.2, hq]
    exact h.1.1

mutual

theorem phase3T_pres : ∀ (eps : Q) (cut : Bool) (fuel : Nat) (t : TreeF)
    (h h' : SnapH) (t' : TreeF),
    phase3T eps cut fuel h t = some (h', t') → TreeF.goodV t = true →
    TreeF.goodV t' = true ∧ (lastF t'.seg).1 = (lastF t.seg).1
  | eps, cut, fuel, .node s cs, h, h', t', hp, hg => by
    rw [phase3T] at hp
    cases hcl : cutNodeLoop eps cut fuel h s [] [] with
    | none => rw [hcl] at hp; cases hp
    | some r1 =>
      obtain ⟨h1, s', cutsv⟩ := r1
      rw [hcl] at hp
      dsimp only at hp
      cases hpf : phase3F eps cut fuel h1 cs with
      | none => rw [hpf] at hp; cases hp
      | some r2 =>
        obtain ⟨h2, cs'⟩ := r2
        rw [hpf] at hp
        dsimp only at hp
        cases hp
        rw [TreeF.goodV, Bool.and_eq_true] at hg
        obtain ⟨hvs, hgc⟩ := hg
        obtain ⟨hvs', hh', hl'⟩ :=
          cutNodeLoop_pres eps cut fuel h s [] [] h1 s' cutsv hcl hvs
        have hvu := hvs'
        unfold validSeg at hvu
        rw [Bool.and_eq_true, decide_eq_true_iff] at hvu
        have hlen : 2 ≤ s'.length := by
          have := hvu.1
          rwa [show (fvals s').length = s'.length from List.length_map _ _] at this
        obtain ⟨p, rest, rfl⟩ : ∃ p rest, s' = p :: rest := by
          cases s' with
          | nil => simp at hlen
          | cons a b => exact ⟨a, b, rfl⟩
        have hrest : rest ≠ [] := by
          intro hr
          rw [hr] at hlen
          simp at hlen
        have hnds : noDupPts (fvals (([p] : List FPoint).reverse ++ rest)) = true := by
          have := hvu.2
          simpa using this
        obtain ⟨hch, hce⟩ := splitGo_spec cutsv rest [p] hrest (by simp) hnds
        have hplast : ([p] : List FPoint).getLastD fpzero = p := rfl
        rw [hplast] at hch hce
        have hforall := phase3F_pres eps cut fuel cs h1 h' cs' hpf
          (fun u hu => (goodVChildren_mem s cs hgc u hu).1)
        cases hpieces : splitGo cutsv [p] rest with
        | nil => exact absurd hpieces (splitGo_ne_nil cutsv rest [p])
        | cons q ps =>
          rw [hpieces] at hch hce
          obtain ⟨hqhead, hqval, hqch⟩ := hch
          have h1h : headF (p :: rest) = p := rfl
          have hqheadv : (headF q).1 = (headF s).1 := by
            rw [show headF q = q.headD fpzero from rfl, hqhead, ← h1h, hh']
          have hgvc : TreeF.goodVChildren q cs' = true :=
            goodVChildren_transfer s q hqheadv hforall hgc
          have ht0 : TreeF.goodV (TreeF.node q cs') = true := by
            rw [TreeF.goodV, Bool.and_eq_true]
            exact ⟨hqval, hgvc⟩
          obtain ⟨hgr, hlr⟩ := chainFold ps (TreeF.node q cs')
            (q.getLastD fpzero) ht0 rfl hqch
          have hbc : buildChain (splitAtCuts (p :: rest) cutsv) cs'
              = ps.foldl (fun t piece => TreeF.node piece [t]) (TreeF.node q cs') := by
            show buildChain (splitGo cutsv [p] rest) cs' = _
            rw [hpieces]
            rfl
          constructor
          · rw [hbc]
            exact hgr
          · rw [hbc, hlr]
            have hend : chainEnd (q.getLastD fpzero) ps = rest.getLastD fpzero := hce
            have hlast : lastF (p :: rest) = rest.getLastD fpzero := by
              unfold lastF
              rw [List.getLastD_cons]
              exact getLastD_ne_nil hrest p fpzero
            rw [hend, ← hlast, hl']
            rfl

theorem phase3F_pres : ∀ (eps : Q) (cut : Bool) (fuel : Nat) (cs : List TreeF)
    (h h' : SnapH) (cs' : List TreeF),
    phase3F eps cut fuel h cs = some (h', cs') → (∀ t ∈ cs, TreeF.goodV t = true) →
    List.Forall₂ (fun t t' => TreeF.goodV t' = true ∧
      (lastF (TreeF.seg t')).1 = (lastF (TreeF.seg t)).1) cs cs'
  | eps, cut, fuel, [], h, h', cs', hp, _ => by
    rw [phase3F] at hp
    cases hp
    exact .nil
  | eps, cut, fuel, t :: ts, h, h', cs', hp, hall => by
    rw [phase3F] at hp
    cases hp1 : phase3T eps cut fuel h t with
    | none => rw [hp1] at hp; cases hp
    | some r1 =>
      obtain ⟨h1, t1⟩ := r1
      rw [hp1] at hp
      dsimp only at hp
      cases hp2 : phase3F eps cut fuel h1 ts with
      | none => rw [hp2] at hp; cases hp
      | some r2 =>
        obtain ⟨h2, ts2⟩ := r2
        rw [hp2] at hp
        dsimp only at hp
        cases hp
        exact .cons
          (phase3T_pres eps cut fuel t h h1 t1 hp1 (hall t (List.mem_cons_self _ _)))
          (phase3F_pres eps cut fuel ts h1 h' ts2 hp2
            (fun u hu => hall u (List.mem_cons_of_mem _ hu)))

end

theorem toTree_seg : ∀ t : TreeF, Tree.seg (TreeF.toTree t) = fvals (TreeF.seg t)
  | .node _ _ => rfl

mutual

/-- A value-good flagged tree converts to an exactly consistent tree. -/
theorem toTree_consistentE : ∀ u : TreeF, TreeF.goodV u = true →
    Tree.consistentE (TreeF.toTree u) = true
  | .node s cs, h => by
    rw [TreeF.goodV, Bool.and_eq_true] at h
    rw [TreeF.toTree, Tree.consistentE, Bool.and_eq_true]
    exact ⟨h.1, toTreeF_consistentE s cs h.2⟩

theorem toTreeF_consistentE : ∀ (s : List FPoint) (cs : List TreeF),
    TreeF.goodVChildren s cs = true →
    Tree.consistentChildrenE (fvals s) (TreeF.toTreeF cs) = true
  | _, [], _ => rfl
  | s, t :: ts, h => by
    rw [TreeF.goodVChildren, Bool.and_eq_true, Bool.and_eq_true] at h
    rw [TreeF.toTreeF, Tree.consistentChildrenE, Bool.and_eq_true, Bool.and_eq_true]
    refine ⟨⟨?_, toTree_consistentE t h.1.2⟩, toTreeF_consistentE s ts h.2⟩
    rw [toTree_seg, lastP_fvals, headP_fvals]
    exact h.1.1

end

theorem ofTreeF_mem : ∀ (f : List Tree) (u : TreeF), u ∈ TreeF.ofTreeF f →
    ∃ t ∈ f, u = TreeF.ofTree t
  | [], u, hu => absurd (by rw [TreeF.ofTreeF] at hu; exact hu) (List.not_mem_nil u)
  | t :: ts, u, hu => by
    rw [TreeF.ofTreeF] at hu
    rcases List.mem_cons.mp hu with rfl | hu'
    · exact ⟨t, List.mem_cons_self _ _, rfl⟩
    · obtain ⟨t', ht', he⟩ := ofTreeF_mem ts u hu'
      exact ⟨t', List.mem_cons_of_mem _ ht', he⟩

theorem mapGeomF_mem (g : List FPoint → List FPoint) :
    ∀ (l : List TreeF) (u : TreeF), u ∈ TreeF.mapGeomF g l →
      ∃ v ∈ l, u = TreeF.mapGeom g v
  | [], u, hu => absurd (by rw [TreeF.mapGeomF] at hu; exact hu) (List.not_mem_nil u)
  | v :: vs, u, hu => by
    rw [TreeF.mapGeomF] at hu
    rcases List.mem_cons.mp hu with rfl | hu'
    · exact ⟨v, List.mem_cons_self _ _, rfl⟩
    · obtain ⟨v', hv', he⟩ := mapGeomF_mem g vs u hu'
      exact ⟨v', List.mem_cons_of_mem _ hv', he⟩

theorem toTreeF_mem : ∀ (l : List TreeF) (t : Tree), t ∈ TreeF.toTreeF l →
    ∃ u ∈ l, t = TreeF.toTree u
  | [], t, ht => absurd (by rw [TreeF.toTreeF] at ht; exact ht) (List.not_mem_nil t)
  | u :: us, t, ht => by
    rw [TreeF.toTreeF] at ht
    rcases List.mem_cons.mp ht with rfl | ht'
    · exact ⟨u, List.mem_cons_self _ _, rfl⟩
    · obtain ⟨u', hu', he⟩ := toTreeF_mem us t ht'
      exact ⟨u', List.mem_cons_of_mem _ hu', he⟩

mutual

/-- Structural consistency is stronger than exact consistency. -/
theorem consistentE_of_S : ∀ t : Tree, Tree.consistentS t = true →
    Tree.consistentE t = true
  | .node s cs, h => by
    rw [Tree.consistentS, Bool.and_eq_true] at h
    rw [Tree.consistentE, Bool.and_eq_true]
    exact ⟨h.1, consistentChildrenE_of_S s cs h.2⟩

theorem consistentChildrenE_of_S : ∀ (s : List Point) (cs : List Tree),
    Tree.consistentChildrenS s cs = true → Tree.consistentChildrenE s cs = true
  | _, [], _ => rfl
  | s, t :: ts, h => by
    rw [Tree.consistentChildrenS, Bool.and_eq_true, Bool.and_eq_true] at h
    rw [Tree.consistentChildrenE, Bool.and_eq_true, Bool.and_eq_true]
    refine ⟨⟨?_, consistentE_of_S t h.1.2⟩, consistentChildrenE_of_S s ts h.2⟩
    have he : lastP t.seg = headP s := of_decide_eq_true h.1.1
    rw [he]
    exact pbeq_refl _

end

/-- Consistency of every output tree of `snap` on a structurally consistent
input forest. -/
theorem snap_consistent (hu : HUCs) (f : List Tree) (eps : Q) (cutI : Bool)
    (hres : HUCs) (fres : List Tree)
    (hf : ∀ t ∈ f, Tree.consistentS t = true)
    (hs : snap hu f eps cutI = some (hres, fres)) :
    ∀ t ∈ fres, is_consistent t = true := by
  have hg : f.all is_consistent = true :=
    List.all_eq_true.mpr fun t ht =>
      consistentB_of_E t (consistentE_of_S t (hf t ht))
  rw [snap, if_pos hg] at hs
  cases hp1 : phase1 eps (SnapH.ofHUCs hu) (TreeF.ofTreeF f) with
  | mk h1 f1 =>
    rw [hp1] at hs
    dsimp only at hs
    cases hp2 : phase2 eps (endpointsF (TreeF.normF f1)) h1 with
    | none => rw [hp2] at hs; cases hs
    | some h2 =>
      rw [hp2] at hs
      dsimp only at hs
      cases hp3 : phase3F eps cutI
          ((ptsCount h2 (TreeF.normF f1) + 2) * (ptsCount h2 (TreeF.normF f1) + 2))
          h2 (TreeF.normF f1) with
      | none => rw [hp3] at hs; cases hs
      | some r =>
        obtain ⟨h3, f3⟩ := r
        rw [hp3] at hs
        dsimp only at hs
        cases hs
        have hf1 : f1 = TreeF.mapGeomF (fEnds (snapPtF (SnapH.ofHUCs hu) eps))
            (TreeF.ofTreeF f) :=
          (congrArg Prod.snd hp1).symm
        have hok : ∀ u ∈ f1, TreeF.okV u = true := by
          rw [hf1]
          intro u hu'
          obtain ⟨v, hv, rfl⟩ := mapGeomF_mem _ _ u hu'
          obtain ⟨t, ht, rfl⟩ := ofTreeF_mem f v hv
          exact phase1_okV _ t (hf t ht)
        have hgood : ∀ u ∈ TreeF.normF f1, TreeF.goodV u = true :=
          normF_goodV_top f1 hok
        have hforall := phase3F_pres eps cutI _ (TreeF.normF f1) h2 h3 f3 hp3 hgood
        intro t ht
        obtain ⟨u, hu', rfl⟩ := toTreeF_mem f3 t ht
        obtain ⟨v, _, hr⟩ := forall₂_mem_right hforall u hu'
        exact consistentB_of_E _ (toTree_consistentE u hr.1)

/-! ### Per-point movement tracking through the snapping engine -/

/-- Point provenance between flagged polylines: each output point is an
input point kept in place, a within-`eps` move of a not-yet-adjusted input
point (which becomes flagged), or a fresh flagged insertion. -/
inductive MovedL (eps : Q) : List FPoint → List FPoint → Prop where
  | nil : MovedL eps [] []
  | keep {l m : List FPoint} (p : FPoint) :
      MovedL eps l m → MovedL eps (p :: l) (p :: m)
  | move {l m : List FPoint} (p q : Point) : closeQ p q eps = true →
      MovedL eps l m → MovedL eps ((p, false) :: l) ((q, true) :: m)
  | ins {l m : List FPoint} (q : Point) :
      MovedL eps l m → MovedL eps l ((q, true) :: m)

/-- Value-level point provenance: each output point is the corresponding
input point, a within-`eps` move of it, or an insertion. -/
inductive PtsApprox (eps : Q) : List Point → List Point → Prop where
  | nil : PtsApprox eps [] []
  | keep {l m : List Point} (p : Point) :
      PtsApprox eps l m → PtsApprox eps (p :: l) (p :: m)
  | move {l m : List Point} (p q : Point) : closeQ p q eps = true →
      PtsApprox eps l m → PtsApprox eps (p :: l) (q :: m)
  | ins {l m : List Point} (q : Point) :
      PtsApprox eps l m → PtsApprox eps l (q :: m)

theorem movedL_refl (eps : Q) : ∀ l : List FPoint, MovedL eps l l
  | [] => .nil
  | p :: rest => .keep p (movedL_refl eps rest)

/-- Adjusted points stay adjusted, so two rounds of tracked edits compose
into one round: no point is moved twice. -/
theorem movedL_trans (eps : Q) {b c : List FPoint} (h2 : MovedL eps b c) :
    ∀ {a : List FPoint}, MovedL eps a b → MovedL eps a c := by
  induction h2 with
  | nil => intro a h1; exact h1
  | keep p h2' ih =>
    intro a h1
    cases h1 with
    | keep _ h1' => exact .keep _ (ih h1')
    | move pv qv hc h1' => exact .move pv qv hc (ih h1')
    | ins qv h1' => exact .ins qv (ih h1')
  | move pv qv hcl h2' ih =>
    intro a h1
    cases h1 with
    | keep _ h1' => exact .move pv qv hcl (ih h1')
  | ins q h2' ih =>
    intro a h1
    exact .ins q (ih h1)

theorem movedL_insert (eps : Q) (q : Point) :
    ∀ (l : List FPoint) (n : Nat),
      MovedL eps l (l.take n ++ (q, true) :: l.drop n)
  | l, 0 => by simpa using MovedL.ins q (movedL_refl eps l)
  | [], n + 1 => by simpa using MovedL.ins q (movedL_refl eps [])
  | p :: rest, n + 1 => by
    simpa using MovedL.keep p (movedL_insert eps q rest n)

theorem fp_false {fp : FPoint} (h : fp.2 = false) : fp = (fp.1, false) := by
  obtain ⟨a, b⟩ := fp
  have hb : b = false := h
  subst hb
  rfl

theorem fp_true {fp : FPoint} (h : fp.2 = true) : fp = (fp.1, true) := by
  obtain ⟨a, b⟩ := fp
  have hb : b = true := h
  subst hb
  rfl

theorem movedL_set (eps : Q) (x : Point) :
    ∀ (l : List FPoint) (k : Nat),
      (l.getD k fpzero).2 = false → closeQ (l.getD k fpzero).1 x eps = true →
      k < l.length → MovedL eps l (l.set k (x, true))
  | [], k, _, _, hk => absurd hk (by simp)
  | p :: rest, 0, hf, hc, _ => by
    rw [List.getD_cons_zero] at hf hc
    rw [fp_false hf]
    exact .move p.1 x hc (movedL_refl eps rest)
  | p :: rest, k + 1, hf, hc, hk => by
    rw [List.getD_cons_succ] at hf hc
    show MovedL eps (p :: rest) (p :: rest.set k (x, true))
    exact .keep p (movedL_set eps x rest k hf hc (by simpa using hk))

theorem getD_set_self {α : Type} (a d : α) :
    ∀ (l : List α) (i : Nat), i < l.length → (l.set i a).getD i d = a
  | [], i, hi => absurd hi (by simp)
  | x :: xs, 0, _ => rfl
  | x :: xs, i + 1, hi => by
    rw [List.set_cons_succ, List.getD_cons_succ]
    exact getD_set_self a d xs i (by simpa using hi)

theorem getD_set_ne {α : Type} (a d : α) :
    ∀ (l : List α) (i j : Nat), i ≠ j → (l.set i a).getD j d = l.getD j d
  | [], _, _, _ => by simp
  | x :: xs, 0, 0, hij => absurd rfl hij
  | x :: xs, 0, j + 1, _ => by
    rw [List.set_cons_zero, List.getD_cons_succ, List.getD_cons_succ]
  | x :: xs, i + 1, 0, _ => by
    rw [List.set_cons_succ, List.getD_cons_zero, List.getD_cons_zero]
  | x :: xs, i + 1, j + 1, hij => by
    rw [List.set_cons_succ, List.getD_cons_succ, List.getD_cons_succ]
    exact getD_set_ne a d xs i j (fun he => hij (by rw [he]))

theorem set_oob {α : Type} (a : α) :
    ∀ (l : List α) (i : Nat), l.length ≤ i → l.set i a = l
  | [], _, _ => rfl
  | x :: xs, 0, hle => absurd hle (by simp)
  | x :: xs, i + 1, hle => by
    rw [List.set_cons_succ, set_oob a xs i (by simpa using hle)]

theorem getD_map {α β : Type} (g : α → β) (d : α) :
    ∀ (l : List α) (i : Nat), (l.map g).getD i (g d) = g (l.getD i d)
  | [], i => by simp
  | x :: xs, 0 => rfl
  | x :: xs, i + 1 => by
    rw [List.map_cons, List.getD_cons_succ, List.getD_cons_succ]
    exact getD_map g d xs i

theorem forall₂_of_getD {α β : Type} {R : α → β → Prop} (d : α) (d' : β) :
    ∀ (l : List α) (m : List β), l.length = m.length →
      (∀ i, i < l.length → R (l.getD i d) (m.getD i d')) → List.Forall₂ R l m
  | [], [], _, _ => .nil
  | [], b :: m, hlen, _ => by simp at hlen
  | a :: l, [], hlen, _ => by simp at hlen
  | a :: l, b :: m, hlen, hR => by
    refine .cons (by simpa using hR 0 (by simp)) ?_
    exact forall₂_of_getD d d' l m (by simpa using hlen)
      (fun i hi => by simpa using hR (i + 1) (by simpa using hi))

theorem forall₂_getD {α β : Type} {R : α → β → Prop} {l : List α} {m : List β}
    (h : List.Forall₂ R l m) (d : α) (d' : β) (hd : R d d') :
    ∀ i, R (l.getD i d) (m.getD i d') := by
  induction h with
  | nil => intro i; simpa using hd
  | cons hr hrest ih =>
    intro i
    cases i with
    | zero => simpa using hr
    | succ i' => simpa using ih i'

/-- Value projection of tracked edits on an initially unflagged polyline. -/
theorem movedL_fvals (eps : Q) : ∀ {lf m : List FPoint}, MovedL eps lf m →
    ∀ s : List Point, lf = s.map (fun p => (p, false)) →
      PtsApprox eps s (fvals m) := by
  intro lf m h
  induction h with
  | nil =>
    intro s hs
    cases s with
    | nil => exact .nil
    | cons p s' => simp at hs
  | keep p h' ih =>
    intro s hs
    cases s with
    | nil => simp at hs
    | cons p0 s' =>
      rw [List.map_cons] at hs
      injection hs with h1 h2
      show PtsApprox eps (p0 :: s') (p.1 :: fvals _)
      rw [h1]
      exact .keep p0 (ih s' h2)
  | move pv qv hc h' ih =>
    intro s hs
    cases s with
    | nil => simp at hs
    | cons p0 s' =>
      rw [List.map_cons] at hs
      injection hs with h1 h2
      have hpv : pv = p0 := congrArg Prod.fst h1
      show PtsApprox eps (p0 :: s') (qv :: fvals _)
      rw [← hpv]
      exact .move pv qv hc (ih s' h2)
  | ins qv h' ih =>
    intro s hs
    exact .ins qv (ih s hs)

/-- Value-good store relation: same segment count and polygon table, each
segment tracked by `MovedL`. -/
def StoreM (eps : Q) (h h' : SnapH) : Prop :=
  h'.segs.length = h.segs.length ∧ h'.gons = h.gons ∧
    ∀ sid, MovedL eps (h.segs.getD sid []) (h'.segs.getD sid [])

theorem storeM_refl (eps : Q) (h : SnapH) : StoreM eps h h :=
  ⟨rfl, rfl, fun _ => movedL_refl eps _⟩

theorem storeM_trans {eps : Q} {a b c : SnapH}
    (h1 : StoreM eps a b) (h2 : StoreM eps b c) : StoreM eps a c :=
  ⟨h2.1.trans h1.1, h2.2.1.trans h1.2.1,
    fun sid => movedL_trans eps (h2.2.2 sid) (h1.2.2 sid)⟩

theorem storeM_setSeg (eps : Q) (h : SnapH) (sid : Nat) (pts : List FPoint)
    (hm : MovedL eps (h.segs.getD sid []) pts) :
    StoreM eps h (h.setSeg sid pts) := by
  refine ⟨by simp [SnapH.setSeg], rfl, ?_⟩
  intro j
  show MovedL eps (h.segs.getD j []) ((h.segs.set sid pts).getD j [])
  by_cases hj : sid = j
  · subst hj
    by_cases hlen : sid < h.segs.length
    · rw [getD_set_self pts [] h.segs sid hlen]
      exact hm
    · rw [set_oob pts h.segs sid (Nat.le_of_not_lt hlen)]
      exact movedL_refl eps _
  · rw [getD_set_ne pts [] h.segs sid j hj]
    exact movedL_refl eps _

theorem nearestOnSeg_spec (p : Point) : ∀ (l : List Point) (d : Q) (q : Point),
    nearestOnSeg p l = some (d, q) → d = dist2 p q
  | [], d, q, h => by rw [nearestOnSeg] at h; cases h
  | [_], d, q, h => by rw [nearestOnSeg] at h; cases h
  | a :: b :: rest, d, q, h => by
    rw [nearestOnSeg] at h
    cases hr : nearestOnSeg p (b :: rest) with
    | none =>
      rw [hr] at h
      dsimp only at h
      cases h
      rfl
    | some r =>
      obtain ⟨d', pt'⟩ := r
      rw [hr] at h
      dsimp only at h
      by_cases hb : (dist2 p (nearestOnEdge p a b)).ble d' = true
      · rw [if_pos hb] at h
        cases h
        rfl
      · rw [if_neg hb] at h
        cases h
        exact nearestOnSeg_spec p (b :: rest) _ _ hr

theorem best3_keep (P : Q × Nat × Point → Prop) (a b : Option (Q × Nat × Point))
    (ha : ∀ r, a = some r → P r) (hb : ∀ r, b = some r → P r) :
    ∀ r, best3 a b = some r → P r := by
  intro r h
  cases a with
  | none =>
    simp only [best3] at h
    exact hb r h
  | some c =>
    cases b with
    | none =>
      simp only [best3] at h
      cases h
      exact ha r rfl
    | some c' =>
      simp only [best3] at h
      by_cases hlt : Q.blt c'.1 c.1 = true
      · rw [if_pos hlt] at h
        cases h
        exact hb r rfl
      · rw [if_neg hlt] at h
        cases h
        exact ha r rfl

theorem bestArcGon_spec (h : SnapH) (p : Point) :
    ∀ (g : List (Nat × Bool)) (r : Q × Nat × Point),
      bestArcGon h p g = some r → r.1 = dist2 p r.2.2
  | [], r, hr => by rw [bestArcGon] at hr; cases hr
  | sb :: rest, r, hr => by
    rw [bestArcGon] at hr
    refine best3_keep (fun r => r.1 = dist2 p r.2.2) _ _ ?_ ?_ r hr
    · intro r' hr'
      cases hn : nearestOnSeg p (fvals (h.segs.getD sb.1 [])) with
      | none => rw [hn] at hr'; cases hr'
      | some dq =>
        rw [hn] at hr'
        cases hr'
        exact nearestOnSeg_spec p _ _ _ hn
    · intro r' hr'
      exact bestArcGon_spec h p rest r' hr'

theorem bestArcPolys_spec (h : SnapH) (p : Point) :
    ∀ (gs : List (List (Nat × Bool))) (r : Q × Nat × Point),
      bestArcPolys h p gs = some r → r.1 = dist2 p r.2.2
  | [], r, hr => by rw [bestArcPolys] at hr; cases hr
  | g :: rest, r, hr => by
    rw [bestArcPolys] at hr
    exact best3_keep (fun r => r.1 = dist2 p r.2.2) _ _
      (fun r' hr' => bestArcGon_spec h p g r' hr')
      (fun r' hr' => bestArcPolys_spec h p rest r' hr') r hr

theorem bestArcPoint_spec (h : SnapH) (p : Point) (r : Q × Nat × Point)
    (hr : bestArcPoint h p = some r) : r.1 = dist2 p r.2.2 :=
  bestArcPolys_spec h p h.gons r hr

/-- The phase-1 endpoint map leaves a point alone or flags it and moves it
at most `eps` away. -/
theorem snapPtF_spec (h : SnapH) (eps : Q) (pb : FPoint) :
    snapPtF h eps pb = pb ∨
      ((snapPtF h eps pb).2 = true ∧
        closeQ pb.1 (snapPtF h eps pb).1 eps = true) := by
  cases hb : bestArcPoint h pb.1 with
  | none =>
    left
    unfold snapPtF
    rw [hb]
  | some r =>
    obtain ⟨d, sid, pt⟩ := r
    have hd : d = dist2 pb.1 pt := bestArcPoint_spec h pb.1 _ hb
    have he : snapPtF h eps pb =
        (if d.ble (eps.mul eps) then (if pbeq pt pb.1 then pb else (pt, true))
          else pb) := by
      unfold snapPtF
      rw [hb]
    by_cases hble : d.ble (eps.mul eps) = true
    · by_cases hpq : pbeq pt pb.1 = true
      · left
        rw [he, if_pos hble, if_pos hpq]
      · right
        rw [he, if_pos hble, if_neg hpq]
        refine ⟨rfl, ?_⟩
        show (dist2 pb.1 pt).ble (eps.mul eps) = true
        rw [← hd]
        exact hble
    · left
      rw [he, if_neg hble]

/-- One tracked edit step for an endpoint of an unflagged polyline. -/
theorem movedL_endpoint (eps : Q) (h : SnapH) (p : FPoint) (hp : p.2 = false)
    {l m : List FPoint} (hrest : MovedL eps l m) :
    MovedL eps (p :: l) (snapPtF h eps p :: m) := by
  rcases snapPtF_spec h eps p with hsame | ⟨hflag, hcl⟩
  · rw [hsame]
    exact .keep p hrest
  · have key : ∀ q : FPoint, q.2 = true → closeQ p.1 q.1 eps = true →
        MovedL eps (p :: l) (q :: m) := by
      intro q hqf hqc
      rw [fp_false hp, fp_true hqf]
      exact .move p.1 q.1 hqc hrest
    exact key _ hflag hcl

theorem movedL_lastMap (eps : Q) (h : SnapH) :
    ∀ m : List FPoint, (∀ fp ∈ m, fp.2 = false) → m ≠ [] →
      MovedL eps m (m.dropLast ++ [snapPtF h eps (m.getLastD fpzero)])
  | [], _, hne => absurd rfl hne
  | [a], hflag, _ => by
    show MovedL eps [a] ([] ++ [snapPtF h eps a])
    exact movedL_endpoint eps h a (hflag a (List.mem_cons_self _ _)) .nil
  | a :: b :: m', hflag, _ => by
    show MovedL eps (a :: b :: m')
      (a :: ((b :: m').dropLast ++ [snapPtF h eps ((b :: m').getLastD b)]))
    rw [show (b :: m').getLastD b = (b :: m').getLastD fpzero from
      getLastD_ne_nil (by simp) b fpzero]
    exact .keep a (movedL_lastMap eps h (b :: m')
      (fun fp hfp => hflag fp (List.mem_cons_of_mem _ hfp)) (by simp))

/-- The phase-1 endpoint pass over one unflagged geometry is a tracked
edit: only the two endpoints can move, each at most `eps`. -/
theorem fEnds_moved (eps : Q) (h : SnapH) :
    ∀ s : List FPoint, (∀ fp ∈ s, fp.2 = false) →
      MovedL eps s (fEnds (snapPtF h eps) s)
  | [], _ => .nil
  | [p], hflag => by
    show MovedL eps [p] [snapPtF h eps p]
    exact movedL_endpoint eps h p (hflag p (List.mem_cons_self _ _)) .nil
  | p :: r :: rest, hflag => by
    show MovedL eps (p :: r :: rest) (snapPtF h eps p ::
      ((r :: rest).dropLast ++ [snapPtF h eps ((r :: rest).getLastD fpzero)]))
    exact movedL_endpoint eps h p (hflag p (List.mem_cons_self _ _))
      (movedL_lastMap eps h (r :: rest)
        (fun fp hfp => hflag fp (List.mem_cons_of_mem _ hfp)) (by simp))

theorem best2_keep (P : Q × Point → Prop) (a b : Option (Q × Point))
    (ha : ∀ r, a = some r → P r) (hb : ∀ r, b = some r → P r) :
    ∀ r, best2 a b = some r → P r := by
  intro r h
  cases a with
  | none =>
    simp only [best2] at h
    exact hb r h
  | some c =>
    cases b with
    | none =>
      simp only [best2] at h
      cases h
      exact ha r rfl
    | some c' =>
      simp only [best2] at h
      by_cases hlt : Q.blt c'.1 c.1 = true
      · rw [if_pos hlt] at h
        cases h
        exact hb r rfl
      · rw [if_neg hlt] at h
        cases h
        exact ha r rfl

theorem bestEndpoint_spec (v : Point) : ∀ (E : List Point) (r : Q × Point),
    bestEndpoint E v = some r → r.1 = dist2 v r.2
  | [], r, hr => by rw [bestEndpoint] at hr; cases hr
  | e :: rest, r, hr => by
    rw [bestEndpoint] at hr
    refine best2_keep (fun r => r.1 = dist2 v r.2) _ _ ?_ ?_ r hr
    · intro r' hr'
      cases hr'
      rfl
    · intro r' hr'
      exact bestEndpoint_spec v rest r' hr'

/-- The phase-2 boundary pass over one segment is a tracked edit. -/
theorem phase2Seg_moved (eps : Q) (E : List Point) :
    ∀ (l l' : List FPoint), phase2Seg eps E l = some l' → MovedL eps l l'
  | [], l', h => by
    rw [phase2Seg] at h
    cases h
    exact .nil
  | vb :: rest, l', h => by
    rw [phase2Seg] at h
    cases hrec : phase2Seg eps E rest with
    | none =>
      cases hbe : bestEndpoint E vb.1 with
      | none => rw [hbe, hrec] at h; dsimp only at h; cases h
      | some r =>
        obtain ⟨d, e⟩ := r
        rw [hbe, hrec] at h
        dsimp only at h
        by_cases hble : d.ble (eps.mul eps) = true
        · rw [if_pos hble] at h
          by_cases hpq : pbeq vb.1 e = true
          · rw [if_pos hpq] at h; dsimp only at h; cases h
          · rw [if_neg hpq] at h
            by_cases hfl : vb.2 = true
            · rw [if_pos hfl] at h; dsimp only at h; cases h
            · rw [if_neg hfl] at h; dsimp only at h; cases h
        · rw [if_neg hble] at h; dsimp only at h; cases h
    | some rest' =>
      have hmr : MovedL eps rest rest' := phase2Seg_moved eps E rest rest' hrec
      cases hbe : bestEndpoint E vb.1 with
      | none =>
        rw [hbe, hrec] at h
        dsimp only at h
        cases h
        exact .keep vb hmr
      | some r =>
        obtain ⟨d, e⟩ := r
        have hd : d = dist2 vb.1 e := bestEndpoint_spec vb.1 E (d, e) hbe
        rw [hbe, hrec] at h
        dsimp only at h
        by_cases hble : d.ble (eps.mul eps) = true
        · rw [if_pos hble] at h
          by_cases hpq : pbeq vb.1 e = true
          · rw [if_pos hpq] at h
            dsimp only at h
            cases h
            exact .keep vb hmr
          · rw [if_neg hpq] at h
            by_cases hfl : vb.2 = true
            · rw [if_pos hfl] at h; dsimp only at h; cases h
            · rw [if_neg hfl] at h
              dsimp only at h
              cases h
              have hv : vb = (vb.1, false) := fp_false (by simpa using hfl)
              rw [hv]
              refine .move vb.1 e ?_ hmr
              show (dist2 vb.1 e).ble (eps.mul eps) = true
              rw [← hd]
              exact hble
        · rw [if_neg hble] at h
          dsimp only at h
          cases h
          exact .keep vb hmr

theorem segsMapM_forall (g : List FPoint → Option (List FPoint)) :
    ∀ (ss ss' : List (List FPoint)), segsMapM g ss = some ss' →
      List.Forall₂ (fun s s' => g s = some s') ss ss'
  | [], ss', h => by
    rw [segsMapM] at h
    cases h
    exact .nil
  | s :: rest, ss', h => by
    rw [segsMapM] at h
    cases hg : g s with
    | none => rw [hg] at h; dsimp only at h; cases h
    | some s1 =>
      cases hr : segsMapM g rest with
      | none => rw [hg, hr] at h; dsimp only at h; cases h
      | some rest1 =>
        rw [hg, hr] at h
        dsimp only at h
        cases h
        exact .cons hg (segsMapM_forall g rest rest1 hr)

/-- A phase-1 landing-point insertion is a tracked edit. -/
theorem insertPtSeg_moved (eps : Q) (q : Point) (pts : List FPoint) :
    MovedL eps pts (insertPtSeg q pts) := by
  unfold insertPtSeg
  by_cases ha : pts.any (fun fp => pbeq fp.1 q) = true
  · rw [if_pos ha]
    exact movedL_refl eps pts
  · rw [if_neg ha]
    cases hb : bestEdgeIdx q (fvals pts) with
    | none => exact movedL_refl eps pts
    | some r =>
      obtain ⟨d, k⟩ := r
      dsimp only
      exact movedL_insert eps q pts (k + 1)

/-- Phase-3 threading of a point through a polyline is a tracked edit: a
kept polyline, a single unflagged vertex moved at most `eps` onto the
target (flagging it), or a flagged insertion. -/
theorem moveOrInsert_moved (eps : Q) (x : Point) (io : Bool)
    (pts pts' : List FPoint) (h : moveOrInsert eps x io pts = some pts') :
    MovedL eps pts pts' := by
  unfold moveOrInsert at h
  by_cases ha : pts.any (fun fp => pbeq fp.1 x) = true
  · rw [if_pos ha] at h
    cases h
    exact movedL_refl eps pts
  · rw [if_neg ha] at h
    cases hb : bestVertexIdx eps x io pts with
    | some r =>
      obtain ⟨d, k⟩ := r
      rw [hb] at h
      dsimp only at h
      by_cases hflag : (pts.getD k fpzero).2 = true
      · rw [if_pos hflag] at h; cases h
      · rw [if_neg hflag] at h
        cases h
        unfold bestVertexIdx at hb
        obtain ⟨_, hklen, _, hd, hble⟩ :=
          bvGo_spec eps x io pts.length pts 0 d k hb
        refine movedL_set eps x pts k (by simpa using hflag) ?_
          (by simpa using hklen)
        show (dist2 (pts.getD k fpzero).1 x).ble (eps.mul eps) = true
        rw [show pts.getD k fpzero = pts.getD (k - 0) fpzero from by
          rw [Nat.sub_zero], ← hd]
        exact hble
    | none =>
      rw [hb] at h
      dsimp only at h
      cases he : bestEdgeIdx x (fvals pts) with
      | none =>
        rw [he] at h
        dsimp only at h
        cases h
        exact movedL_refl eps pts
      | some r =>
        obtain ⟨d, k⟩ := r
        rw [he] at h
        dsimp only at h
        cases h
        exact movedL_insert eps x pts (k + 1)

theorem storeM_insertAt (eps : Q) (h : SnapH) (sid : Nat) (q : Point) :
    StoreM eps h (h.insertAt sid q) :=
  storeM_setSeg eps h sid _ (insertPtSeg_moved eps q (h.segs.getD sid []))

/-- The phase-1 landing-point fold only inserts into segments. -/
theorem storeM_phase1Fold (eps : Q) (hpre : SnapH) :
    ∀ (E : List Point) (h : SnapH),
      StoreM eps h (E.foldl
        (fun acc p =>
          match bestArcPoint hpre p with
          | none => acc
          | some (d, sid, pt) =>
            if d.ble (eps.mul eps) then acc.insertAt sid pt else acc)
        h)
  | [], h => storeM_refl eps h
  | p :: E', h => by
    rw [List.foldl_cons]
    refine storeM_trans ?_ (storeM_phase1Fold eps hpre E' _)
    cases hb : bestArcPoint hpre p with
    | none =>
      exact storeM_refl eps h
    | some r =>
      obtain ⟨d, sid, pt⟩ := r
      show StoreM eps h
        (if d.ble (eps.mul eps) = true then h.insertAt sid pt else h)
      by_cases hble : d.ble (eps.mul eps) = true
      · rw [if_pos hble]
        exact storeM_insertAt eps h sid pt
      · rw [if_neg hble]
        exact storeM_refl eps h

theorem phase1_store (eps : Q) (h : SnapH) (f : List TreeF) :
    StoreM eps h (phase1 eps h f).1 :=
  storeM_phase1Fold eps h (endpointsF f) h

theorem phase2_store (eps : Q) (E : List Point) (h h' : SnapH)
    (hp : phase2 eps E h = some h') : StoreM eps h h' := by
  unfold phase2 at hp
  cases hm : segsMapM (phase2Seg eps E) h.segs with
  | none => rw [hm] at hp; cases hp
  | some segs' =>
    rw [hm] at hp
    dsimp only at hp
    cases hp
    have hfa := segsMapM_forall (phase2Seg eps E) h.segs segs' hm
    have hfa2 : List.Forall₂ (fun s s' => MovedL eps s s') h.segs segs' :=
      List.Forall₂.imp (fun a b hg => phase2Seg_moved eps E a b hg) hfa
    refine ⟨hfa2.length_eq.symm, rfl, ?_⟩
    intro sid
    exact forall₂_getD hfa2 [] [] .nil sid

theorem cutNodeLoop_store (eps : Q) (cut : Bool) :
    ∀ (fuel : Nat) (h : SnapH) (s : List FPoint) (cuts resolved : List Point)
      (h' : SnapH) (s' : List FPoint) (cuts' : List Point),
      cutNodeLoop eps cut fuel h s cuts resolved = some (h', s', cuts') →
      StoreM eps h h' := by
  intro fuel
  induction fuel with
  | zero =>
    intro h s cuts resolved h' s' cuts' hcl
    rw [cutNodeLoop] at hcl
    cases hcl
  | succ fuel ih =>
    intro h s cuts resolved h' s' cuts' hcl
    rw [cutNodeLoop] at hcl
    cases hfc : findCrossing h
        (headP (fvals s) :: lastP (fvals s) :: (cuts ++ resolved)) (fvals s) with
    | none =>
      rw [hfc] at hcl
      cases hcl
      exact storeM_refl eps h
    | some sx =>
      obtain ⟨sid, x⟩ := sx
      rw [hfc] at hcl
      dsimp only at hcl
      cases hmr : moveOrInsert eps x true s with
      | none => rw [hmr] at hcl; cases hcl
      | some s1 =>
        cases hmb : moveOrInsert eps x false (h.segs.getD sid []) with
        | none => rw [hmr, hmb] at hcl; cases hcl
        | some seg1 =>
          rw [hmr, hmb] at hcl
          dsimp only at hcl
          have hstep : StoreM eps h (h.setSeg sid seg1) :=
            storeM_setSeg eps h sid seg1
              (moveOrInsert_moved eps x false _ seg1 hmb)
          cases cut with
          | true =>
            rw [if_pos rfl] at hcl
            exact storeM_trans hstep (ih _ _ _ _ _ _ _ hcl)
          | false =>
            rw [if_neg (by simp)] at hcl
            exact storeM_trans hstep (ih _ _ _ _ _ _ _ hcl)

mutual

theorem phase3T_store : ∀ (eps : Q) (cut : Bool) (fuel : Nat) (t : TreeF)
    (h h' : SnapH) (t' : TreeF),
    phase3T eps cut fuel h t = some (h', t') → StoreM eps h h'
  | eps, cut, fuel, .node s cs, h, h', t', hp => by
    rw [phase3T] at hp
    cases hcl : cutNodeLoop eps cut fuel h s [] [] with
    | none => rw [hcl] at hp; cases hp
    | some r1 =>
      obtain ⟨h1, s', cutsv⟩ := r1
      rw [hcl] at hp
      dsimp only at hp
      cases hpf : phase3F eps cut fuel h1 cs with
      | none => rw [hpf] at hp; cases hp
      | some r2 =>
        obtain ⟨h2, cs'⟩ := r2
        rw [hpf] at hp
        dsimp only at hp
        cases hp
        exact storeM_trans
          (cutNodeLoop_store eps cut fuel h s [] [] h1 s' cutsv hcl)
          (phase3F_store eps cut fuel cs h1 h' cs' hpf)

theorem phase3F_store : ∀ (eps : Q) (cut : Bool) (fuel : Nat) (cs : List TreeF)
    (h h' : SnapH) (cs' : List TreeF),
    phase3F eps cut fuel h cs = some (h', cs') → StoreM eps h h'
  | eps, cut, fuel, [], h, h', cs', hp => by
    rw [phase3F] at hp
    cases hp
    exact storeM_refl eps h
  | eps, cut, fuel, t :: ts, h, h', cs', hp => by
    rw [phase3F] at hp
    cases hp1 : phase3T eps cut fuel h t with
    | none => rw [hp1] at hp; cases hp
    | some r1 =>
      obtain ⟨h1, t1⟩ := r1
      rw [hp1] at hp
      dsimp only at hp
      cases hp2 : phase3F eps cut fuel h1 ts with
      | none => rw [hp2] at hp; cases hp
      | some r2 =>
        obtain ⟨h2, ts2⟩ := r2
        rw [hp2] at hp
        dsimp only at hp
        cases hp
        exact storeM_trans
          (phase3T_store eps cut fuel t h h1 t1 hp1)
          (phase3F_store eps cut fuel ts h1 h' ts2 hp2)

end

/-- End-to-end movement tracking for the HUC store through `snap`. -/
theorem snap_store (hu : HUCs) (f : List Tree) (eps : Q) (cutI : Bool)
    (hres : HUCs) (fres : List Tree)
    (hs : snap hu f eps cutI = some (hres, fres)) :
    List.Forall₂ (PtsApprox eps) hu.segments hres.segments ∧
      hres.gons = hu.gons := by
  rw [snap] at hs
  by_cases hg : (f.all is_consistent) = true
  · rw [if_pos hg] at hs
    cases hp1 : phase1 eps (SnapH.ofHUCs hu) (TreeF.ofTreeF f) with
    | mk h1 f1 =>
      rw [hp1] at hs
      dsimp only at hs
      cases hp2 : phase2 eps (endpointsF (TreeF.normF f1)) h1 with
      | none => rw [hp2] at hs; cases hs
      | some h2 =>
        rw [hp2] at hs
        dsimp only at hs
        cases hp3 : phase3F eps cutI
            ((ptsCount h2 (TreeF.normF f1) + 2) *
              (ptsCount h2 (TreeF.normF f1) + 2))
            h2 (TreeF.normF f1) with
        | none => rw [hp3] at hs; cases hs
        | some r =>
          obtain ⟨h3, f3⟩ := r
          rw [hp3] at hs
          dsimp only at hs
          cases hs
          have hm0 : StoreM eps (SnapH.ofHUCs hu) h1 := by
            have hph := phase1_store eps (SnapH.ofHUCs hu) (TreeF.ofTreeF f)
            have h1eq : (phase1 eps (SnapH.ofHUCs hu) (TreeF.ofTreeF f)).1 = h1 :=
              congrArg Prod.fst hp1
            rwa [h1eq] at hph
          have hm2 : StoreM eps h1 h2 := phase2_store eps _ h1 h2 hp2
          have hm3 : StoreM eps h2 h3 := phase3F_store eps cutI _ _ h2 h3 f3 hp3
          obtain ⟨hlen, hgons, hsegs⟩ :=
            storeM_trans hm0 (storeM_trans hm2 hm3)
          constructor
          · show List.Forall₂ (PtsApprox eps) hu.segments (h3.segs.map fvals)
            refine forall₂_of_getD [] [] _ _ ?_ ?_
            · rw [List.length_map, hlen]
              simp [SnapH.ofHUCs]
            · intro i _
              have hmi := hsegs i
              have he1 : (SnapH.ofHUCs hu).segs.getD i [] =
                  (hu.segments.getD i []).map (fun p => (p, false)) := by
                show (hu.segments.map
                  (fun s => s.map (fun p => (p, false)))).getD i [] = _
                exact getD_map (fun s => s.map (fun p => (p, false))) []
                  hu.segments i
              have hmi' : MovedL eps
                  ((hu.segments.getD i []).map (fun p => (p, false)))
                  (h3.segs.getD i []) := he1 ▸ hmi
              have happ := movedL_fvals eps hmi' (hu.segments.getD i []) rfl
              have he2 : (h3.segs.map fvals).getD i [] =
                  fvals (h3.segs.getD i []) := getD_map fvals [] h3.segs i
              rw [he2]
              exact happ
          · exact hgons
  · rw [if_neg hg] at hs
    cases hs

/-- Value-level equality of lists of polylines (used to compare pre-order
traversals). -/
def lllPbeq : List (List (List Point)) → List (List (List Point)) → Bool
  | [], [] => true
  | a :: as_, b :: bs =>
    (a.length == b.length && (a.zip b).all fun pr => listPbeq pr.1 pr.2) && lllPbeq as_ bs
  | _, _ => false

/-- The left box `[(0,-5),(10,-5),(10,5),(0,5)]` of the snapping scenarios. -/
def boxL : List Point := [ip 0 (-5), ip 10 (-5), ip 10 5, ip 0 5]

/-- The right box `[(10,-5),(20,-5),(20,5),(10,5)]`, sharing the edge x=10. -/
def boxR : List Point := [ip 10 (-5), ip 20 (-5), ip 20 5, ip 10 5]

/-- C4: one box, one reach `[(5,0),(10,0)]` ending on the boundary, ε=0.1,
cut_intersections=true: snap leaves the polygon geometrically unchanged
(the landing vertex is threaded in, on the original edge), and the forest
is one tree with one node whose geometry is `[(5,0),(10,0)]`. -/
theorem snap_endpoint_on_boundary :
    (snap (HUCs.make [boxL]) [Tree.node [ip 5 0, ip 10 0] []] (qq 1 10) true).map
        (fun r =>
          (lllPbeq (r.2.map Tree.dfs) [[[ip 5 0, ip 10 0]]],
            close_ring (r.1.polygon 0)
              [ip 0 (-5), ip 10 (-5), ip 10 5, ip 0 5, ip 0 (-5)] (qq 1 10),
            r.1.len))
      = some (true, true, 1) := by decide

/-- C3: two boxes sharing the edge x=10, one reach `[(5,0),(15,0)]`, ε=0.1,
cut_intersections=true: the reach is cut at `(10,0)`; the forest is a
single root with exactly one child; pre-order traversal yields
`[(10,0),(15,0)]` then `[(5,0),(10,0)]`; and both polygons remain
geometrically as given within tolerance. -/
theorem snap_cut_at_crossing :
    (snap (HUCs.make [boxL, boxR]) [Tree.node [ip 5 0, ip 15 0] []] (qq 1 10) true).map
        (fun r =>
          (lllPbeq (r.2.map Tree.dfs) [[[ip 10 0, ip 15 0], [ip 5 0, ip 10 0]]],
            r.2.map (fun t => t.children.length),
            close_ring (r.1.polygon 0)
              [ip 0 (-5), ip 10 (-5), ip 10 5, ip 0 5, ip 0 (-5)] (qq 1 10),
            close_ring (r.1.polygon 1)
              [ip 10 (-5), ip 20 (-5), ip 20 5, ip 10 5, ip 10 (-5)] (qq 1 10)))
      = some (true, [1], true, true) := by decide

/-- C6: cleanup (`quick_cleanup`) is idempotent: for every input collection
`X`, `cleanup(cleanup(X)) = cleanup(X)`; in particular, running it on
already-clean input (such as its own output) returns that input unchanged. -/
theorem quick_cleanup_idem (X : List (List Point)) :
    quick_cleanup (quick_cleanup X) = quick_cleanup X := by
  obtain ⟨hsep, -, hmem⟩ := cleanLines_inv X [] List.Pairwise.nil
  exact cleanLines_fixed hsep (quick_cleanup X) [] (by intro c hc; cases hc) hmem

/-- C5: cleanup (`quick_cleanup`) does not alter topology: the output has
exactly as many polylines as the input, each with exactly as many points,
in the same order, every point within the fixed merge epsilon of the input
point it replaces; and on a reach set with the injected near-duplicate
point `(15, -3.00000001)` adjacent to `(15, -3)`, the cleanup output
matches the original set within `ε = 0.1`. -/
theorem quick_cleanup_topology :
    (∀ X : List (List Point),
        List.Forall₂ (List.Forall₂ (fun p r => closeQ p r cleanupEps = true))
          X (quick_cleanup X) ∧ (quick_cleanup X).length = X.length) ∧
      assert_close (quick_cleanup (riversFixture ++ [extraSeg])) riversFixture (qq 1 10)
        = true := by
  refine ⟨fun X => ⟨cleanLines_forall2 X [], ?_⟩, by decide⟩
  exact (cleanLines_forall2 X []).length_eq.symm

/-- C9: `warp_shape` with distinct CRSs replaces only the first ring of the
feature's geometry with its reprojection, leaving every other ring and
every non-geometry field unchanged, and returns the (updated) feature
itself; with `old_crs = new_crs` it returns the feature entirely
unchanged. -/
theorem warp_shape_frame {CRS : Type} [DecidableEq CRS]
    (transform : CRS → CRS → List Point → List Point)
    (feature : Feature) (old_crs new_crs : CRS) :
    (old_crs = new_crs → warp_shape transform feature old_crs new_crs = feature) ∧
      (old_crs ≠ new_crs →
        (warp_shape transform feature old_crs new_crs).ftype = feature.ftype ∧
        (warp_shape transform feature old_crs new_crs).properties = feature.properties ∧
        (warp_shape transform feature old_crs new_crs).geometry.gtype =
          feature.geometry.gtype ∧
        (∀ r rs, feature.geometry.coordinates = r :: rs →
          (warp_shape transform feature old_crs new_crs).geometry.coordinates =
            transform old_crs new_crs r :: rs)) := by
  constructor
  · intro h; simp [warp_shape, h]
  · intro h
    refine ⟨by simp [warp_shape, h], by simp [warp_shape, h], by simp [warp_shape, h], ?_⟩
    intro r rs hr
    simp [warp_shape, h, hr, List.headI]

/-- Sample projection map used to instantiate `warp_shape_frame`. -/
def wsTf : Bool → Bool → List Point → List Point :=
  fun _ _ ps => ps.map fun p => (p.2, p.1)

/-- Sample feature used to instantiate `warp_shape_frame`. -/
def feat0 : Feature :=
  { ftype := "Feature"
    properties := [("NAME", "w")]
    geometry := { gtype := "Polygon", coordinates := [[ip 1 2, ip 3 4], [ip 5 6]] } }

theorem warp_shape_frame_witness :
    warp_shape wsTf feat0 true true = feat0 ∧
      (warp_shape wsTf feat0 true false).geometry.coordinates =
        wsTf true false [ip 1 2, ip 3 4] :: [[ip 5 6]] :=
  ⟨(warp_shape_frame wsTf feat0 true true).1 rfl,
    ((warp_shape_frame wsTf feat0 true false).2 (by decide)).2.2.2 _ _ rfl⟩

/-- C10: when `warp_raster` is given a destination profile (and either no
destination CRS or one equal to the profile's), and the profile's CRS
differs from the source CRS, the call reaches the reprojection branch with
`dst_height`/`dst_width`/`dst_affine` never assigned and cannot complete
normally (a `NameError`); when the destination CRS equals the source CRS
the source profile and array are returned unchanged. -/
theorem warp_raster_unassigned {CRS A Arr : Type} [DecidableEq CRS]
    (default_crs : CRS)
    (calcTransform : CRS → CRS → Nat → Nat → A × Nat × Nat)
    (reproject : Arr → A → CRS → A → CRS → Nat → Nat → Arr)
    (src_profile : RProfile CRS A) (src_array : Arr)
    (dst_crs? : Option CRS) (p : RProfile CRS A)
    (hc : dst_crs? = none ∨ dst_crs? = some p.crs) :
    (p.crs ≠ src_profile.crs →
        warp_raster default_crs calcTransform reproject src_profile src_array
          dst_crs? (some p) = .error .nameError) ∧
      (p.crs = src_profile.crs →
        warp_raster default_crs calcTransform reproject src_profile src_array
          dst_crs? (some p) = .ok (src_profile, src_array)) := by
  rcases hc with rfl | rfl
  · constructor
    · intro hne; simp [warp_raster, hne]
    · intro heq; simp [warp_raster, heq]
  · constructor
    · intro hne; simp [warp_raster, hne]
    · intro heq; simp [warp_raster, heq]

/-- Sample raster profile used to instantiate `warp_raster_unassigned`. -/
def prof : Nat → RProfile Nat Unit :=
  fun c => { crs := c, affine := (), width := 7, height := 9 }

theorem warp_raster_unassigned_witness :
    warp_raster 0 (fun _ _ w h => ((), w, h)) (fun a _ _ _ _ _ _ => a)
        (prof 1) (5 : Int) none (some (prof 2)) = .error .nameError ∧
      warp_raster 0 (fun _ _ w h => ((), w, h)) (fun a _ _ _ _ _ _ => a)
        (prof 1) (5 : Int) (some 1) (some (prof 1)) = .ok (prof 1, 5) :=
  ⟨(warp_raster_unassigned 0 _ _ (prof 1) 5 none (prof 2) (Or.inl rfl)).1 (by decide),
    (warp_raster_unassigned 0 _ _ (prof 1) 5 (some 1) (prof 1) (Or.inr rfl)).2 rfl⟩

/-- C1: every tree produced by the tree builder on valid reach geometries
satisfies the consistency predicate, and so does every tree of the forest
returned by `snap` on a structurally consistent input forest (the builder's
output on cleaned reaches, where coinciding coordinates are identical). -/
theorem tree_consistency_invariant :
    (∀ (rs : List (List Point)) (forest : List Tree),
        (∀ l ∈ rs, validSeg l = true) →
        make_global_tree rs = some forest →
        ∀ t ∈ forest, is_consistent t = true) ∧
    (∀ (hu : HUCs) (f : List Tree) (eps : Q) (cutI : Bool)
        (hres : HUCs) (fres : List Tree),
        (∀ t ∈ f, Tree.consistentS t = true) →
        snap hu f eps cutI = some (hres, fres) →
        ∀ t ∈ fres, is_consistent t = true) :=
  ⟨fun rs forest hval hmk t ht =>
      consistentB_of_E t (make_global_tree_consistentE rs forest hval hmk t ht),
    fun hu f eps cutI hres fres hf hs => snap_consistent hu f eps cutI hres fres hf hs⟩

theorem tree_consistency_invariant_witness :
    is_consistent
        (Tree.node [ip 10 0, ip 15 (-3)] [Tree.node [ip 5 2, ip 10 0] []]) = true ∧
      is_consistent (Tree.node [ip 2 1, ip 3 1] []) = true :=
  ⟨tree_consistency_invariant.1
      [[ip 5 2, ip 10 0], [ip 10 0, ip 15 (-3)]]
      [Tree.node [ip 10 0, ip 15 (-3)] [Tree.node [ip 5 2, ip 10 0] []]]
      (by decide) rfl
      (Tree.node [ip 10 0, ip 15 (-3)] [Tree.node [ip 5 2, ip 10 0] []])
      (List.mem_cons_self _ _),
    tree_consistency_invariant.2 (HUCs.make [boxL])
      [Tree.node [ip 2 1, ip 3 1] []] (qq 1 10) true
      (HUCs.make [boxL]) [Tree.node [ip 2 1, ip 3 1] []]
      (by decide) rfl
      (Tree.node [ip 2 1, ip 3 1] []) (List.mem_cons_self _ _)⟩

/-- C7: the per-point movement bound of `snap` at tolerance ε. (i) End to
end, every segment of the returned HUC store arises from the corresponding
input segment by keeping points in place, moving a point at most ε away,
or inserting new points — so no store point accumulates more than ε of net
movement through the three phases. (ii) Every primitive through which snap
adjusts geometries — the phase-1 endpoint map over an initially unflagged
polyline, the phase-2 vertex conformance pass, and the phase-3 point
threading — performs a tracked edit: any point it changes moves at most ε,
only a not-yet-adjusted (unflagged) point may move, and a moved or inserted
point comes out flagged, so it is never moved again. -/
theorem snap_movement_bound (hu : HUCs) (f : List Tree) (eps : Q)
    (cutI : Bool) (hres : HUCs) (fres : List Tree)
    (_heps : Q.blt qzero eps = true)
    (hs : snap hu f eps cutI = some (hres, fres)) :
    (List.Forall₂ (PtsApprox eps) hu.segments hres.segments ∧
        hres.gons = hu.gons) ∧
      (∀ (hst : SnapH) (s : List FPoint), (∀ fp ∈ s, fp.2 = false) →
        MovedL eps s (fEnds (snapPtF hst eps) s)) ∧
      (∀ (E : List Point) (l l' : List FPoint),
        phase2Seg eps E l = some l' → MovedL eps l l') ∧
      (∀ (x : Point) (io : Bool) (pts pts' : List FPoint),
        moveOrInsert eps x io pts = some pts' → MovedL eps pts pts') :=
  ⟨snap_store hu f eps cutI hres fres hs,
    fun hst s hflag => fEnds_moved eps hst s hflag,
    fun E l l' hp => phase2Seg_moved eps E l l' hp,
    fun x io pts pts' hp => moveOrInsert_moved eps x io pts pts' hp⟩

theorem snap_movement_bound_witness :
    Q.blt qzero (qq 1 10) = true ∧
      snap (HUCs.make [boxL]) [Tree.node [ip 2 1, ip 3 1] []] (qq 1 10) true =
        some (HUCs.make [boxL], [Tree.node [ip 2 1, ip 3 1] []]) ∧
      ((List.Forall₂ (PtsApprox (qq 1 10)) (HUCs.make [boxL]).segments
            (HUCs.make [boxL]).segments ∧
          (HUCs.make [boxL]).gons = (HUCs.make [boxL]).gons) ∧
        (∀ (hst : SnapH) (s : List FPoint), (∀ fp ∈ s, fp.2 = false) →
          MovedL (qq 1 10) s (fEnds (snapPtF hst (qq 1 10)) s)) ∧
        (∀ (E : List Point) (l l' : List FPoint),
          phase2Seg (qq 1 10) E l = some l' → MovedL (qq 1 10) l l') ∧
        (∀ (x : Point) (io : Bool) (pts pts' : List FPoint),
          moveOrInsert (qq 1 10) x io pts = some pts' →
            MovedL (qq 1 10) pts pts')) :=
  ⟨by decide, rfl,
    snap_movement_bound (HUCs.make [boxL]) [Tree.node [ip 2 1, ip 3 1] []]
      (qq 1 10) true (HUCs.make [boxL]) [Tree.node [ip 2 1, ip 3 1] []]
      (by decide) rfl⟩

end Workflow
